import Mathlib

/-!
Shallow embedding of the farm reward-distribution core of pandora-chain/pdachain
(`consensus/farms/pool_distribution.go`, `consensus/farms/farm.go`,
`consensus/farms/contract/address_tree_contract.go` and the contract view
helpers), together with theorems settling the frozen claims about it.

Conventions used throughout:
* Go `*big.Int` values are modelled as `Int` (they can be negative in a few
  places) or as `Nat` where the source can only produce non-negative values.
* 20-byte addresses are modelled as `Nat`; the null address is `0` and the
  burn address `0x…dead` is the constant `burnAddr`.
* Machine-level truncations of the source (`big.Int.Uint64`, storing into a
  fixed-width big-endian byte field, `common.BigToHash`) are made explicit via
  `goUint64`, `packBytes` and `storeWord`.
-/

namespace PdaChain

/-- Wei per whole token (`params.Ether` in the Go source). -/
def etherUnit : Nat := 1000000000000000000

/-- `ActivePowerMultipleMaxLimit` from `pool_distribution.go` (whole tokens). -/
def activePowerMultipleMaxLimit : Nat := 10000

/-- `TreeHeightMaxLimit` from `pool_distribution.go`. -/
def treeHeightMaxLimit : Nat := 200

/-- The burn sentinel `BurnAddress = 0x…dead` as a natural number. -/
def burnAddr : Nat := 0xdead

/-- Semantics of Go `big.Int.Uint64` applied to a possibly negative value:
the low 64 bits of the absolute value (`math/big` reads the low word of the
magnitude, ignoring the sign). -/
def goUint64 (x : Int) : Nat := x.natAbs % 2 ^ 64

/-- Semantics of storing a `big.Int` into one 32-byte storage word via
`common.BigToHash`: `Bytes()` yields the big-endian magnitude, and
`Hash.SetBytes` crops it from the left to 32 bytes, i.e. `|x| mod 2^256`. -/
def storeWord (x : Int) : Nat := x.natAbs % 2 ^ 256

/-- Number of bytes of the minimal big-endian encoding (`big.Int.Bytes`):
zero for zero, otherwise one more than the greatest `k` with `256^k ≤ v`
(that `k` is at most `v`, so the bounded search is exact). -/
def byteLen (v : Nat) : Nat :=
  if v = 0 then 0 else Nat.findGreatest (fun k => 256 ^ k ≤ v) v + 1

/-- Writing a non-negative value `v` into a `w`-byte field by
`copy(dst[0:w], common.LeftPadBytes(v.Bytes(), w))`: if the minimal encoding
fits in `w` bytes the value is stored unchanged; otherwise `LeftPadBytes`
returns the oversized slice and `copy` keeps its `w` most significant bytes. -/
def packBytes (w : Nat) (v : Nat) : Nat :=
  if byteLen v ≤ w then v else v / 256 ^ (byteLen v - w)

/-- Floor cube root on naturals. This models `uint64(math.Cbrt(float64 n))`
from the source; the float cube root is taken to be exactly rounded here. -/
def cbrtFloor (n : Nat) : Nat := Nat.findGreatest (fun k => k * k * k ≤ n) n

theorem byteLen_le_iff (v w : Nat) : byteLen v ≤ w ↔ v < 256 ^ w := by
  unfold byteLen
  by_cases h : v = 0
  · subst h
    constructor
    · intro _
      exact pow_pos (by norm_num) w
    · intro _
      simp
  · rw [if_neg h]
    have hv1 : 1 ≤ v := Nat.one_le_iff_ne_zero.mpr h
    have hch : Nat.findGreatest (fun k => 256 ^ k ≤ v) v ≤ v ∧
        (Nat.findGreatest (fun k => 256 ^ k ≤ v) v ≠ 0 →
          (fun k => 256 ^ k ≤ v) (Nat.findGreatest (fun k => 256 ^ k ≤ v) v)) ∧
        ∀ ⦃m⦄, Nat.findGreatest (fun k => 256 ^ k ≤ v) v < m → m ≤ v →
          ¬ (fun k => 256 ^ k ≤ v) m :=
      Nat.findGreatest_eq_iff.mp rfl
    obtain ⟨hgle, hspec, hmax⟩ := hch
    constructor
    · intro hle
      by_contra hge
      push_neg at hge
      have hwv : w ≤ v :=
        le_trans (Nat.le_of_lt (Nat.lt_pow_self (by norm_num) w)) hge
      rcases Nat.lt_or_ge (Nat.findGreatest (fun k => 256 ^ k ≤ v) v) w
        with hlt | hge2
      · exact hmax hlt hwv hge
      · omega
    · intro hlt
      have hw1 : 1 ≤ w := by
        rcases Nat.eq_zero_or_pos w with hw | hw
        · subst hw; simp at hlt; omega
        · exact hw
      rcases Nat.eq_zero_or_pos (Nat.findGreatest (fun k => 256 ^ k ≤ v) v)
        with hg0 | hg0
      · omega
      · have hPg : 256 ^ (Nat.findGreatest (fun k => 256 ^ k ≤ v) v) ≤ v :=
          hspec (by omega)
        have hgw : Nat.findGreatest (fun k => 256 ^ k ≤ v) v < w := by
          by_contra hgwn
          push_neg at hgwn
          have := Nat.pow_le_pow_right (by norm_num : 1 ≤ 256) hgwn
          omega
        omega

theorem packBytes_eq_of_lt {w v : Nat} (h : v < 256 ^ w) : packBytes w v = v := by
  unfold packBytes
  rw [if_pos ((byteLen_le_iff v w).mpr h)]

theorem packBytes_lt (w v : Nat) : packBytes w v < 256 ^ w := by
  unfold packBytes
  by_cases h : byteLen v ≤ w
  · rw [if_pos h]
    exact (byteLen_le_iff v w).mp h
  · rw [if_neg h]
    push_neg at h
    have hvlt : v < 256 ^ (byteLen v) :=
      (byteLen_le_iff v (byteLen v)).mp (le_refl _)
    have hsplit : 256 ^ (byteLen v) = 256 ^ (byteLen v - w) * 256 ^ w := by
      rw [← pow_add]
      congr 1
      omega
    apply Nat.div_lt_of_lt_mul
    calc v < 256 ^ (byteLen v) := hvlt
    _ = 256 ^ (byteLen v - w) * 256 ^ w := hsplit

theorem packBytes_le (w v : Nat) : packBytes w v ≤ v := by
  unfold packBytes
  split
  · exact le_refl v
  · exact Nat.div_le_self _ _

theorem cbrtFloor_le_self (n : Nat) : cbrtFloor n ≤ n :=
  Nat.findGreatest_le n

theorem le_cbrtFloor {k n : Nat} (hk : k ≤ n) (h : k * k * k ≤ n) :
    k ≤ cbrtFloor n :=
  Nat.le_findGreatest hk h

/-! ## `communityPower` (`pool_distribution.go`, lines 440-475)

The Go function iterates over the children's hold amounts carrying three
`uint64` accumulators `maxHoldAmount`, `maxPowerNumber`, `total`.  The fold
state below is `(maxHoldAmount, maxPowerNumber, total)`. -/

/-- One iteration of the loop in `communityPower`: compute the whole-token
balance (`Div` by `params.Ether`, then `Uint64`), the per-child score
(`*10/Ether` below the threshold, `+90000` at or above it), track the unique
maximum, and accumulate the wrapping `uint64` running total. -/
def communityPowerStep (acc : Nat × Nat × Nat) (childAmount : Int) :
    Nat × Nat × Nat :=
  let childAmountEther := goUint64 (childAmount.ediv (etherUnit : Int))
  let powerNumber :=
    if childAmountEther < activePowerMultipleMaxLimit then
      goUint64 ((childAmount * 10).ediv (etherUnit : Int))
    else
      (childAmountEther + 90000) % 2 ^ 64
  let newMaxHold := if acc.2.1 < powerNumber then childAmountEther else acc.1
  let newMaxPower := if acc.2.1 < powerNumber then powerNumber else acc.2.1
  (newMaxHold, newMaxPower, (acc.2.2 + powerNumber) % 2 ^ 64)

/-- `communityPower` from `pool_distribution.go`: after the loop the largest
score is subtracted from the wrapping total (`total -= maxPowerNumber` in
`uint64` arithmetic) and, when the max holder's whole-token balance is
positive, the floor cube root of that balance is added. -/
def communityPower (holdAmounts : List Int) : Nat :=
  let acc := holdAmounts.foldl communityPowerStep (0, 0, 0)
  let total := (acc.2.2 + (2 ^ 64 - acc.2.1)) % 2 ^ 64
  if 0 < acc.1 then (total + cbrtFloor acc.1) % 2 ^ 64 else total

/-- Modelled from the spec: the exact, unbounded-integer evaluation of the
same scoring formula ("sum of all scores − largest score + floor cbrt of the
largest score's whole-token balance"), with no `uint64` truncation or
wrap-around anywhere.  Used only to compare against `communityPower`. -/
def communityPowerExactStep (acc : Int × Int × Int) (childAmount : Int) :
    Int × Int × Int :=
  let childAmountEther := childAmount.ediv (etherUnit : Int)
  let powerNumber :=
    if childAmountEther < (activePowerMultipleMaxLimit : Int) then
      (childAmount * 10).ediv (etherUnit : Int)
    else
      childAmountEther + 90000
  let newMaxHold := if acc.2.1 < powerNumber then childAmountEther else acc.1
  let newMaxPower := if acc.2.1 < powerNumber then powerNumber else acc.2.1
  (newMaxHold, newMaxPower, acc.2.2 + powerNumber)

/-- Modelled from the spec: exact scoring result (see
`communityPowerExactStep`). -/
def communityPowerExact (holdAmounts : List Int) : Int :=
  let acc := holdAmounts.foldl communityPowerExactStep (0, 0, 0)
  let total := acc.2.2 - acc.2.1
  if 0 < acc.1 then total + (cbrtFloor acc.1.toNat : Int) else total

/-- `goUint64` of a natural-number division, when the quotient is below
`2^64`. -/
theorem goUint64_natCast_div {x n : Nat} (h : x / n < 2 ^ 64) :
    goUint64 ((x : Int).ediv (n : Int)) = x / n := by
  rw [goUint64, ← Int.natCast_ediv, Int.natAbs_ofNat, Nat.mod_eq_of_lt h]

/-- C2 counterexample: on the singleton list holding exactly one whole token
(`10^18` wei, below the 10000-token threshold), `communityPower` returns `1`
(the floor cube root of the whole-token balance), not `10 * 1` as the claim
states (nor `10 * 1` plus the cube-root term): the unique maximum's whole
score is subtracted back out of the total before the cube-root term is
added. -/
theorem c2_counterexample :
    communityPower [(1000000000000000000 : Int)] = 1 ∧
    communityPower [(1000000000000000000 : Int)] ≠ 10 * 1 ∧
    communityPower [(1000000000000000000 : Int)] ≠
      10 * 1 + cbrtFloor 1 := by
  refine ⟨by decide, by decide, by decide⟩

/-- C2 (amended): `communityPower [] = 0`; and for a singleton `[x]` whose
whole-token balance `e = x / Ether` satisfies `1 ≤ e < 2^64 - 90000`, the
result is `cbrtFloor e`: the per-child score (`10*x/Ether` below the
10000-token threshold, `e + 90000` at or above it) appears only as an
intermediate value — since the singleton is the unique maximum its whole
score is subtracted again, leaving exactly the floor-cbrt term. -/
theorem c2_singleton_amended (x : Nat) (h1 : 1 ≤ x / etherUnit)
    (h2 : x / etherUnit < 2 ^ 64 - 90000) :
    communityPower [] = 0 ∧
    communityPower [(x : Int)] = cbrtFloor (x / etherUnit) := by
  refine ⟨by decide, ?_⟩
  have hE : 0 < etherUnit := by norm_num [etherUnit]
  have he64 : x / etherUnit < 2 ^ 64 := by omega
  have hether : goUint64 ((x : Int).ediv (etherUnit : Int)) = x / etherUnit :=
    goUint64_natCast_div he64
  have hcbrt : cbrtFloor (x / etherUnit) < 2 ^ 64 :=
    lt_of_le_of_lt (cbrtFloor_le_self _) he64
  have hxlt : x < (x / etherUnit + 1) * etherUnit := by
    have hmod : x % etherUnit < etherUnit := Nat.mod_lt x hE
    have hdm : etherUnit * (x / etherUnit) + x % etherUnit = x :=
      Nat.div_add_mod x etherUnit
    have hlin : x < etherUnit * (x / etherUnit) + etherUnit := by omega
    calc x < etherUnit * (x / etherUnit) + etherUnit := hlin
    _ = (x / etherUnit + 1) * etherUnit := by ring
  simp only [communityPower, communityPowerStep, List.foldl, hether]
  by_cases hcase : x / etherUnit < activePowerMultipleMaxLimit
  · -- below the threshold: score is (x*10)/Ether, positive and far below 2^64
    have hcast : ((x : Int) * 10).ediv (etherUnit : Int) =
        ((x * 10 : Nat) : Int).ediv (etherUnit : Int) := by push_cast; ring_nf
    have hub : (x * 10) / etherUnit < 2 ^ 64 := by
      have hb : (x / etherUnit + 1) * 10 ≤ 100010 := by
        unfold activePowerMultipleMaxLimit at hcase; omega
      have h10 : x * 10 < 100010 * etherUnit := by
        calc x * 10 < ((x / etherUnit + 1) * etherUnit) * 10 :=
              (Nat.mul_lt_mul_right (by norm_num : (0:Nat) < 10)).mpr hxlt
        _ = ((x / etherUnit + 1) * 10) * etherUnit := by ring
        _ ≤ 100010 * etherUnit := Nat.mul_le_mul_right etherUnit hb
      calc (x * 10) / etherUnit < 100010 := Nat.div_lt_of_lt_mul h10
      _ < 2 ^ 64 := by norm_num
    have hlb : 10 ≤ (x * 10) / etherUnit := by
      have hxE : etherUnit ≤ x := (Nat.one_le_div_iff hE).mp h1
      rw [Nat.le_div_iff_mul_le hE]
      calc 10 * etherUnit = etherUnit * 10 := by ring
      _ ≤ x * 10 := Nat.mul_le_mul_right 10 hxE
    have hscore :
        goUint64 (((x : Int) * 10).ediv (etherUnit : Int)) =
          (x * 10) / etherUnit := by
      rw [hcast, goUint64_natCast_div hub]
    rw [if_pos hcase, hscore]
    split_ifs <;> omega
  · -- at or above the threshold: score is e + 90000, positive, below 2^64
    rw [if_neg hcase]
    split_ifs <;> omega

/-- Witness for `c2_singleton_amended` at `x` equal to one whole token. -/
theorem c2_singleton_amended_witness :
    1 ≤ 1000000000000000000 / etherUnit ∧
    1000000000000000000 / etherUnit < 2 ^ 64 - 90000 ∧
    (communityPower [] = 0 ∧
      communityPower [(1000000000000000000 : Int)] =
        cbrtFloor (1000000000000000000 / etherUnit)) :=
  ⟨by decide, by decide,
    c2_singleton_amended 1000000000000000000 (by decide) (by decide)⟩

/-- C10: `communityPower` computes in wrapping 64-bit unsigned arithmetic:
every result is below `2^64`, and on the two-child list
`[2^64 · Ether, Ether]` the returned value (`1`) differs from the exact,
unbounded-integer evaluation of the scoring formula
(`10 + cbrtFloor (2^64)`): the first child's whole-token balance truncates
to `0` as a `uint64` and its score wraps to `0`. -/
theorem c10_uint64_wraparound :
    (∀ holdAmounts : List Int, communityPower holdAmounts < 2 ^ 64) ∧
    (communityPower [(2 ^ 64 * (etherUnit : Int)), (etherUnit : Int)] : Int) ≠
      communityPowerExact [(2 ^ 64 * (etherUnit : Int)), (etherUnit : Int)] := by
  constructor
  · intro l
    unfold communityPower
    by_cases h : 0 < (l.foldl communityPowerStep (0, 0, 0)).1
    · rw [if_pos h]
      exact Nat.mod_lt _ (by norm_num)
    · rw [if_neg h]
      exact Nat.mod_lt _ (by norm_num)
  · intro hEq
    have hL : communityPower [(2 ^ 64 * (etherUnit : Int)), (etherUnit : Int)] =
        1 := by decide
    have e1 : ((2 : Int) ^ 64 * (etherUnit : Int)).ediv (etherUnit : Int) =
        2 ^ 64 := by decide
    have e2 : ((etherUnit : Int)).ediv (etherUnit : Int) = 1 := by decide
    have e3 : ((etherUnit : Int) * 10).ediv (etherUnit : Int) = 10 := by decide
    have hR : communityPowerExact
        [(2 ^ 64 * (etherUnit : Int)), (etherUnit : Int)] =
        10 + (cbrtFloor ((2 ^ 64 : Int).toNat) : Int) := by
      simp only [communityPowerExact, communityPowerExactStep, List.foldl,
        e1, e2, e3]
      norm_num [activePowerMultipleMaxLimit]
    rw [hL, hR] at hEq
    have hc : (0 : Int) ≤ (cbrtFloor ((2 ^ 64 : Int).toNat) : Int) :=
      Int.natCast_nonneg _
    omega

/-! ## Mirrored-mode AddressTree (`contract/address_tree_contract.go`)

The mirrored (anchor-net) variant reads an account's `version` / `parent` /
`depth` storage words from the remote chain and caches them in a local
key-value store.  The cache is modelled as three total maps with default `0`
(an absent raw-db entry reads back as the zero address / `big.NewInt(0)`).
Remote fetches are modelled as succeeding — the fetch-error paths of the
source return before any cache mutation, so they are irrelevant to the cached
values. -/

/-- Local cache of the mirrored address tree (the `cacheDB` key-value pairs
written by `tryCacheAccountNode`): raw stored words per account. -/
structure TreeCache where
  ver : Nat → Nat
  par : Nat → Nat
  dep : Nat → Nat

/-- Configuration and remote state of a mirrored `AddressTreeContract`:
`treeVersion` is the local version gate (a Go `uint64`, so below `2^64`;
`inAnchorNet` additionally requires it to be positive), and the three maps
give the raw 32-byte storage words returned by `storageAt` for the version /
parent / depth slots of each account. -/
structure MirrorEnv where
  treeVersion : Nat
  remoteVer : Nat → Nat
  remotePar : Nat → Nat
  remoteDep : Nat → Nat

/-- `cacheParentOf`: the stored word read back through `BytesToAddress`
keeps the low 20 bytes. -/
def cacheParentOf (c : TreeCache) (a : Nat) : Nat := c.par a % 2 ^ 160

/-- `cacheVersionOf`: the stored bytes read back via `SetBytes`. -/
def cacheVersionOf (c : TreeCache) (a : Nat) : Nat := c.ver a

/-- `cacheDepthOf`: the stored bytes read back via `SetBytes`. -/
def cacheDepthOf (c : TreeCache) (a : Nat) : Nat := c.dep a

/-- `tryCacheAccountNode` (`address_tree_contract.go`, lines 125-192): a
no-op if the account already has a cached (non-null) parent; otherwise fetch
the remote triple and
* if `version == 0`, `depth > 0` and the parent is non-null (all read as Go
  `uint64` / 20-byte address values), cache parent and depth bytes as fetched
  and the version tagged `treeVersion - 1` (`uint64` subtraction);
* else if `version < treeVersion` with the same depth/parent conditions,
  cache the triple exactly as fetched;
* else leave the cache untouched. -/
def tryCacheAccountNode (env : MirrorEnv) (c : TreeCache) (a : Nat) :
    TreeCache :=
  if cacheParentOf c a ≠ 0 then c
  else
    let version := env.remoteVer a % 2 ^ 64
    let parent := env.remotePar a % 2 ^ 160
    let depth := env.remoteDep a % 2 ^ 64
    if version = 0 ∧ 0 < depth ∧ parent ≠ 0 then
      { ver := Function.update c.ver a ((env.treeVersion + (2 ^ 64 - 1)) % 2 ^ 64)
        par := Function.update c.par a (env.remotePar a)
        dep := Function.update c.dep a (env.remoteDep a) }
    else if version < env.treeVersion ∧ 0 < depth ∧ parent ≠ 0 then
      { ver := Function.update c.ver a (env.remoteVer a)
        par := Function.update c.par a (env.remotePar a)
        dep := Function.update c.dep a (env.remoteDep a) }
    else c

/-- `ParentOf` in mirrored mode: populate the cache for the account, then
read the cached parent (the zero address when still absent). -/
def parentOfMirrored (env : MirrorEnv) (c : TreeCache) (a : Nat) :
    TreeCache × Nat :=
  let c2 := tryCacheAccountNode env c a
  (c2, cacheParentOf c2 a)

/-- `DepthOf` in mirrored mode: populate the cache for the account, then
read the cached depth (`0` when still absent). -/
def depthOfMirrored (env : MirrorEnv) (c : TreeCache) (a : Nat) :
    TreeCache × Nat :=
  let c2 := tryCacheAccountNode env c a
  (c2, cacheDepthOf c2 a)

/-- C3: in mirrored mode (positive local `treeVersion`), for an account with
no cache entry: (i) if the remote triple has `version == 0`, `depth > 0` and
a non-null parent, `tryCacheAccountNode` caches the fetched parent and depth
tagged with version `localVersion - 1` (e.g. local version `5` stores `4`,
not `0`); (ii) if the remote version — the `uint64` value the code reads —
is at least the local version, the cache is left untouched and
`ParentOf` / `DepthOf` fall back to the null parent and depth `0`. -/
theorem c3_tryCacheAccountNode (env : MirrorEnv) (c : TreeCache) (a : Nat)
    (hver : 1 ≤ env.treeVersion) (hver64 : env.treeVersion < 2 ^ 64)
    (hpar0 : cacheParentOf c a = 0) (hdep0 : c.dep a = 0) :
    (env.remoteVer a % 2 ^ 64 = 0 → 0 < env.remoteDep a % 2 ^ 64 →
      env.remotePar a % 2 ^ 160 ≠ 0 →
      (tryCacheAccountNode env c a).ver a = env.treeVersion - 1 ∧
      (tryCacheAccountNode env c a).par a = env.remotePar a ∧
      (tryCacheAccountNode env c a).dep a = env.remoteDep a) ∧
    (env.treeVersion ≤ env.remoteVer a % 2 ^ 64 →
      tryCacheAccountNode env c a = c ∧
      (parentOfMirrored env c a).2 = 0 ∧
      (depthOfMirrored env c a).2 = 0) := by
  constructor
  · intro h0 hd hp
    unfold tryCacheAccountNode
    rw [if_neg (by simp [hpar0])]
    rw [if_pos ⟨h0, hd, hp⟩]
    refine ⟨?_, ?_, ?_⟩
    · show Function.update c.ver a _ a = _
      rw [Function.update_same]
      omega
    · show Function.update c.par a _ a = _
      rw [Function.update_same]
    · show Function.update c.dep a _ a = _
      rw [Function.update_same]
  · intro hge
    have hne : tryCacheAccountNode env c a = c := by
      unfold tryCacheAccountNode
      rw [if_neg (by simp [hpar0])]
      rw [if_neg (by intro hc; omega)]
      rw [if_neg (by intro hc; omega)]
    refine ⟨hne, ?_, ?_⟩
    · unfold parentOfMirrored
      rw [hne]
      exact hpar0
    · unfold depthOfMirrored
      rw [hne]
      exact hdep0

/-- Witness for `c3_tryCacheAccountNode`: local version `5`, remote triple
`(version 0, parent 7, depth 3)`, empty cache — the cache stores version `4`
(not `0`), parent `7` and depth `3`. -/
theorem c3_tryCacheAccountNode_witness :
    (tryCacheAccountNode ⟨5, fun _ => 0, fun _ => 7, fun _ => 3⟩
        ⟨fun _ => 0, fun _ => 0, fun _ => 0⟩ 1).ver 1 = 4 ∧
    (tryCacheAccountNode ⟨5, fun _ => 0, fun _ => 7, fun _ => 3⟩
        ⟨fun _ => 0, fun _ => 0, fun _ => 0⟩ 1).par 1 = 7 ∧
    (tryCacheAccountNode ⟨5, fun _ => 0, fun _ => 7, fun _ => 3⟩
        ⟨fun _ => 0, fun _ => 0, fun _ => 0⟩ 1).dep 1 = 3 :=
  (c3_tryCacheAccountNode ⟨5, fun _ => 0, fun _ => 7, fun _ => 3⟩
      ⟨fun _ => 0, fun _ => 0, fun _ => 0⟩ 1 (by norm_num) (by norm_num)
      (by norm_num [cacheParentOf]) rfl).1 (by norm_num) (by norm_num)
    (by norm_num)

/-! ## The distribution ledger (`pool_distribution.go`) -/

/-- Per-pool user record stored in the farm contract's storage (the
`UserInfo` view): values are as stored, so non-negative.  `childrenHold` is
the decoded 16-byte-per-entry `__ChildrenHoldAmount` vector; the reward maps
take a reward-token identifier to the stored `(Reward, RewardDebt)` pair. -/
structure UserState where
  communityPower : Nat
  childrenHold : List Nat
  holderReward : Nat → Nat × Nat
  communityReward : Nat → Nat × Nat

/-- Combined state one pool's `PoolDistribution` reads and writes:
`ranges i = (totalCount, emptyRangeCount)` is the `distributionRawData`
record of range `i` (a 4-byte and a 3-byte big-endian field),
`rewardPerShare tok i` the 24-byte per-range holder accumulator,
`holderTotalPower` / `communityTotalPower` the pool's stored aggregate words,
`communityAccPerShare` the farm contract's per-token community accumulator,
`users` the per-account records, and `balanceCache` the per-block
`blockBalanceCaches` map. -/
structure DistState where
  ranges : Nat → Nat × Nat
  rewardPerShare : Nat → Nat → Nat
  holderTotalPower : Nat
  communityTotalPower : Nat
  communityAccRewardPerShare : Nat → Nat
  users : Nat → UserState
  balanceCache : Nat → Option Int

/-- Static configuration of one pool plus the address tree (read-only during
a distribution update): the `PoolInfo` words `rangeCount`, `rangeInterval`
and `rewardStartRangeIndex`, the pool's reward-token list, the 0815 fork
flag, and the authoritative address-tree reads `ParentOf` / `ChildrenOf`. -/
structure PoolCfg where
  rangeCount : Nat
  rangeInterval : Nat
  rewardStartRangeIndex : Nat
  rewardTokens : List Nat
  isFork0815 : Bool
  parentOf : Nat → Nat
  childrenOf : Nat → List Nat

/-- `GetRangeCount().Uint64()` — the range count as the `uint64` every use
site reads. -/
def rc64 (cfg : PoolCfg) : Nat := cfg.rangeCount % 2 ^ 64

/-- `SetRangeInfo`: write the two fields of range `i` back through their
fixed-width big-endian encodings (4 bytes for `totalCount`, 3 bytes for
`emptyRangeCount`). -/
def setRangeInfo (st : DistState) (i : Nat) (tc e : Nat) : DistState :=
  { st with
    ranges := Function.update st.ranges i (packBytes 4 tc, packBytes 3 e) }

/-- One iteration of the loop in `sort()` at range index `i`: read the
range, overwrite its `emptyRangeCount` with the running empty count, write
it back, then either add `(i - emptyRangeCount) * totalCount` to the running
total power (occupied range) or bump the running empty count (empty range).
Fold state: `(ledger state, emptyRangeTotalCount, totalPower)`. -/
def sortStep (acc : DistState × Nat × Int) (i : Nat) : DistState × Nat × Int :=
  let tc := (acc.1.ranges i).1
  let st := setRangeInfo acc.1 i tc acc.2.1
  if 0 < tc then
    (st, acc.2.1, acc.2.2 + ((i : Int) - (acc.2.1 : Int)) * (tc : Int))
  else
    (st, acc.2.1 + 1, acc.2.2)

/-- `sort()` (`pool_distribution.go`, lines 148-170): one forward pass over
range indices `1 .. rangeCount-1` (`uint64` loop bounds), then store the
accumulated holder total power into the pool word. -/
def sortRanges (cfg : PoolCfg) (st : DistState) : DistState :=
  let acc := (List.range' 1 (rc64 cfg - 1)).foldl sortStep (st, 0, 0)
  { acc.1 with holderTotalPower := storeWord acc.2.2 }

theorem sortStep_fst (acc : DistState × Nat × Int) (i : Nat) :
    (sortStep acc i).1 = setRangeInfo acc.1 i ((acc.1.ranges i).1) acc.2.1 := by
  simp only [sortStep]
  split <;> rfl

theorem setRangeInfo_ranges_fst (st : DistState) (i j : Nat) (tc e : Nat) :
    ((setRangeInfo st i tc e).ranges j).1 =
      if j = i then packBytes 4 tc else (st.ranges j).1 := by
  unfold setRangeInfo
  by_cases h : j = i
  · subst h
    simp [Function.update_same]
  · simp [Function.update_noteq h, h]

theorem sortFold_ranges_fst (l : List Nat) :
    ∀ (st : DistState) (e : Nat) (tp : Int),
      (∀ j, (st.ranges j).1 < 2 ^ 32) →
      ∀ j, ((l.foldl sortStep (st, e, tp)).1.ranges j).1 = (st.ranges j).1 := by
  induction l with
  | nil => intro st e tp _ j; rfl
  | cons i rest ih =>
    intro st e tp hWF j
    rw [List.foldl_cons]
    have hstep : sortStep (st, e, tp) i =
        ((sortStep (st, e, tp) i).1, (sortStep (st, e, tp) i).2) := rfl
    have hfst := sortStep_fst (st, e, tp) i
    have hWF' : ∀ j', (((sortStep (st, e, tp) i).1.ranges j').1) < 2 ^ 32 := by
      intro j'
      rw [hfst, setRangeInfo_ranges_fst]
      by_cases h : j' = i
      · rw [if_pos h]
        exact packBytes_lt 4 _
      · rw [if_neg h]
        exact hWF j'
    calc ((rest.foldl sortStep (sortStep (st, e, tp) i)).1.ranges j).1
        = (((sortStep (st, e, tp) i).1.ranges j).1) := by
          rw [hstep]
          exact ih _ _ _ hWF' j
    _ = (st.ranges j).1 := by
          rw [hfst, setRangeInfo_ranges_fst]
          by_cases h : j = i
          · rw [if_pos h, h]
            exact packBytes_eq_of_lt (hWF i)
          · rw [if_neg h]

theorem sortFold_ranges_notMem (l : List Nat) :
    ∀ (st : DistState) (e : Nat) (tp : Int) (j : Nat), j ∉ l →
      (l.foldl sortStep (st, e, tp)).1.ranges j = st.ranges j := by
  induction l with
  | nil => intro st e tp j _; rfl
  | cons i rest ih =>
    intro st e tp j hj
    rw [List.foldl_cons]
    have hstep : sortStep (st, e, tp) i =
        ((sortStep (st, e, tp) i).1, (sortStep (st, e, tp) i).2) := rfl
    rw [hstep]
    rw [ih _ _ _ j (fun h => hj (List.mem_cons_of_mem i h))]
    rw [sortStep_fst]
    unfold setRangeInfo
    have hne : j ≠ i := fun h => hj (h ▸ List.mem_cons_self i rest)
    simp [Function.update_noteq hne]

theorem sortFold_holderTotalPower (l : List Nat) :
    ∀ (st : DistState) (e : Nat) (tp : Int) (w : Nat),
      l.foldl sortStep ({ st with holderTotalPower := w }, e, tp) =
        ({ (l.foldl sortStep (st, e, tp)).1 with holderTotalPower := w },
          (l.foldl sortStep (st, e, tp)).2) := by
  induction l with
  | nil => intro st e tp w; rfl
  | cons i rest ih =>
    intro st e tp w
    rw [List.foldl_cons, List.foldl_cons]
    have hcomm : sortStep ({ st with holderTotalPower := w }, e, tp) i =
        ({ (sortStep (st, e, tp) i).1 with holderTotalPower := w },
          (sortStep (st, e, tp) i).2) := by
      simp only [sortStep, setRangeInfo]
      split <;> rfl
    rw [hcomm]
    have := ih (sortStep (st, e, tp) i).1 (sortStep (st, e, tp) i).2.1
      (sortStep (st, e, tp) i).2.2 w
    simpa using this

theorem sortStep_eq_pos (st : DistState) (e : Nat) (tp : Int) (i : Nat)
    (h : 0 < (st.ranges i).1) :
    sortStep (st, e, tp) i =
      (setRangeInfo st i ((st.ranges i).1) e, e,
        tp + ((i : Int) - (e : Int)) * (((st.ranges i).1 : Nat) : Int)) := by
  simp only [sortStep]
  rw [if_pos h]

theorem sortStep_eq_neg (st : DistState) (e : Nat) (tp : Int) (i : Nat)
    (h : ¬ 0 < (st.ranges i).1) :
    sortStep (st, e, tp) i =
      (setRangeInfo st i ((st.ranges i).1) e, e + 1, tp) := by
  simp only [sortStep]
  rw [if_neg h]

theorem setRangeInfo_self (st : DistState) (i : Nat) (tc e : Nat)
    (h : st.ranges i = (packBytes 4 tc, packBytes 3 e)) :
    setRangeInfo st i tc e = st := by
  unfold setRangeInfo
  rw [← h, Function.update_eq_self]

theorem sortFold_idem :
    ∀ (l : List Nat), l.Nodup →
      ∀ (st : DistState) (e : Nat) (tp : Int),
        (∀ j, (st.ranges j).1 < 2 ^ 32) →
        l.foldl sortStep ((l.foldl sortStep (st, e, tp)).1, e, tp) =
          l.foldl sortStep (st, e, tp) := by
  intro l
  induction l with
  | nil => intro _ st e tp _; rfl
  | cons i rest ih =>
    intro hnd st e tp hWF
    have hnd' : rest.Nodup := (List.nodup_cons.mp hnd).2
    have hni : i ∉ rest := (List.nodup_cons.mp hnd).1
    have hWFA : ∀ j,
        ((setRangeInfo st i ((st.ranges i).1) e).ranges j).1 < 2 ^ 32 := by
      intro j
      rw [setRangeInfo_ranges_fst]
      by_cases h : j = i
      · rw [if_pos h]; exact packBytes_lt 4 _
      · rw [if_neg h]; exact hWF j
    -- facts about the range record at `i` after the rest of the first pass
    have hRi : ∀ (e₂ : Nat) (tp₂ : Int),
        ((rest.foldl sortStep
            (setRangeInfo st i ((st.ranges i).1) e, e₂, tp₂)).1.ranges i) =
          (packBytes 4 ((st.ranges i).1), packBytes 3 e) := by
      intro e₂ tp₂
      rw [sortFold_ranges_notMem rest _ _ _ i hni]
      unfold setRangeInfo
      simp [Function.update_same]
    have htcR : ∀ (e₂ : Nat) (tp₂ : Int),
        (((rest.foldl sortStep
            (setRangeInfo st i ((st.ranges i).1) e, e₂, tp₂)).1.ranges i).1) =
          (st.ranges i).1 := by
      intro e₂ tp₂
      rw [hRi e₂ tp₂]
      exact packBytes_eq_of_lt (hWF i)
    have hwrite : ∀ (e₂ : Nat) (tp₂ : Int),
        setRangeInfo (rest.foldl sortStep
            (setRangeInfo st i ((st.ranges i).1) e, e₂, tp₂)).1 i
            ((st.ranges i).1) e =
          (rest.foldl sortStep
            (setRangeInfo st i ((st.ranges i).1) e, e₂, tp₂)).1 := by
      intro e₂ tp₂
      exact setRangeInfo_self _ i _ e (hRi e₂ tp₂)
    rw [List.foldl_cons, List.foldl_cons]
    by_cases hpos : 0 < (st.ranges i).1
    · rw [sortStep_eq_pos st e tp i hpos]
      have hstep2 :
          sortStep ((rest.foldl sortStep (setRangeInfo st i ((st.ranges i).1) e,
              e, tp + ((i : Int) - (e : Int)) * (((st.ranges i).1 : Nat) : Int))).1,
            e, tp) i =
          ((rest.foldl sortStep (setRangeInfo st i ((st.ranges i).1) e,
              e, tp + ((i : Int) - (e : Int)) * (((st.ranges i).1 : Nat) : Int))).1,
            e, tp + ((i : Int) - (e : Int)) * (((st.ranges i).1 : Nat) : Int)) := by
        rw [sortStep_eq_pos _ e tp i (by rw [htcR]; exact hpos)]
        rw [htcR, hwrite]
      rw [hstep2]
      exact ih hnd' _ e _ hWFA
    · rw [sortStep_eq_neg st e tp i hpos]
      have hstep2 :
          sortStep ((rest.foldl sortStep (setRangeInfo st i ((st.ranges i).1) e,
              e + 1, tp)).1, e, tp) i =
          ((rest.foldl sortStep (setRangeInfo st i ((st.ranges i).1) e,
              e + 1, tp)).1, e + 1, tp) := by
        rw [sortStep_eq_neg _ e tp i (by rw [htcR]; exact hpos)]
        rw [htcR, hwrite]
      rw [hstep2]
      exact ih hnd' _ (e + 1) tp hWFA

/-- C6: `sort()` is idempotent — on any state whose stored per-range
`totalCount` words are genuine 4-byte values (as every state read back from
the raw buffer is), running `sort` twice in a row yields exactly the same
state as running it once: in particular the same `holderTotalPower` and the
same per-range `emptyRangeCount` values.  The pass only reads `totalCount`
fields, which it rewrites byte-identically, so the second pass recomputes
the identical empty-range counts and total power. -/
theorem c6_sort_idempotent (cfg : PoolCfg) (st : DistState)
    (hWF : ∀ j, (st.ranges j).1 < 2 ^ 32) :
    sortRanges cfg (sortRanges cfg st) = sortRanges cfg st := by
  unfold sortRanges
  have hidem := sortFold_idem (List.range' 1 (rc64 cfg - 1))
    (List.nodup_range' 1 (rc64 cfg - 1)) st 0 0 hWF
  have hcomm := sortFold_holderTotalPower (List.range' 1 (rc64 cfg - 1))
    ((List.range' 1 (rc64 cfg - 1)).foldl sortStep (st, 0, 0)).1 0 0
    (storeWord (((List.range' 1 (rc64 cfg - 1)).foldl sortStep
      (st, 0, 0)).2.2))
  rw [hcomm, hidem]

/-- Witness configuration for `c6_sort_idempotent`. -/
def c6Cfg : PoolCfg :=
  ⟨3, 1, 1, [], false, fun _ => 0, fun _ => []⟩

/-- Witness state for `c6_sort_idempotent`. -/
def c6St : DistState :=
  ⟨fun j => if j = 1 then (2, 5) else (0, 0), fun _ _ => 0, 0, 0, fun _ => 0,
    fun _ => ⟨0, [], fun _ => (0, 0), fun _ => (0, 0)⟩, fun _ => none⟩

/-- Witness for `c6_sort_idempotent` on a small three-range pool. -/
theorem c6_sort_idempotent_witness :
    (∀ j, (c6St.ranges j).1 < 2 ^ 32) ∧
    sortRanges c6Cfg (sortRanges c6Cfg c6St) = sortRanges c6Cfg c6St := by
  have hWF : ∀ j, (c6St.ranges j).1 < 2 ^ 32 := by
    intro j
    show (if j = 1 then ((2:Nat), (5:Nat)) else (0, 0)).1 < 2 ^ 32
    split <;> norm_num
  exact ⟨hWF, c6_sort_idempotent c6Cfg c6St hWF⟩


/-! ## `UpdateRewardPerShares` (`pool_distribution.go`, lines 210-228) -/

/-- One iteration of the holder loop at range `i`: read the 24-byte
accumulator and the range's `emptyRangeCount`, add
`powerPerShare * (i - emptyRangeCount)` in `big.Int` arithmetic, and write
the sum back through the 24-byte field. -/
def updateRPSStep (tok pps : Nat) (st : DistState) (i : Nat) : DistState :=
  let origin := st.rewardPerShare tok i
  let e := (st.ranges i).2
  let appendPerShare : Int := (pps : Int) * ((i : Int) - (e : Int))
  { st with
    rewardPerShare := Function.update st.rewardPerShare tok
      (Function.update (st.rewardPerShare tok) i
        (packBytes 24 (((origin : Int) + appendPerShare).natAbs))) }

/-- `UpdateRewardPerShares`: run `sort()`; if the stored holder total power
is positive, add `(holderReward / power) * (i - emptyRangeCount)` to every
range accumulator from `rewardStartRangeIndex` to `rangeCount - 1`; if the
community total power is positive, add `communityReward / power` to the
community accumulator.  The farm-contract accessor pair
`GetCommunityAccRewardPerShare` / `SetCommunityAccRewardPerShare` is
modelled from the spec as a stored word ("adds `communityReward /
communityTotalPower` to the pool's single community accumulator"), its
implementation file not being part of this tree. -/
def updateRewardPerShares (cfg : PoolCfg) (st0 : DistState) (tok : Nat)
    (holderReward communityReward : Nat) : DistState :=
  let st := sortRanges cfg st0
  let st1 :=
    if 0 < st.holderTotalPower then
      (List.range' (cfg.rewardStartRangeIndex % 2 ^ 64)
          (rc64 cfg - cfg.rewardStartRangeIndex % 2 ^ 64)).foldl
        (updateRPSStep tok (holderReward / st.holderTotalPower)) st
    else st
  if 0 < st1.communityTotalPower then
    { st1 with
      communityAccRewardPerShare :=
        Function.update st1.communityAccRewardPerShare tok
          ((st1.communityAccRewardPerShare tok +
            communityReward / st1.communityTotalPower) % 2 ^ 256) }
  else st1

theorem updateRPSStep_ranges (tok pps : Nat) (st : DistState) (i : Nat) :
    (updateRPSStep tok pps st i).ranges = st.ranges := rfl

theorem updateRPSStep_rps (tok pps : Nat) (st : DistState) (i j : Nat) :
    (updateRPSStep tok pps st i).rewardPerShare tok j =
      if j = i then
        packBytes 24 (((st.rewardPerShare tok i : Int) +
          (pps : Int) * ((i : Int) - (((st.ranges i).2 : Nat) : Int))).natAbs)
      else st.rewardPerShare tok j := by
  unfold updateRPSStep
  simp only [Function.update_same]
  by_cases h : j = i
  · subst h
    simp [Function.update_same]
  · simp [Function.update_noteq h, h]

theorem rpsFold_ranges (tok pps : Nat) :
    ∀ (l : List Nat) (st : DistState),
      (l.foldl (updateRPSStep tok pps) st).ranges = st.ranges := by
  intro l
  induction l with
  | nil => intro st; rfl
  | cons i rest ih =>
    intro st
    rw [List.foldl_cons, ih, updateRPSStep_ranges]

theorem rpsFold_holderTotalPower (tok pps : Nat) :
    ∀ (l : List Nat) (st : DistState),
      (l.foldl (updateRPSStep tok pps) st).holderTotalPower =
        st.holderTotalPower := by
  intro l
  induction l with
  | nil => intro st; rfl
  | cons i rest ih =>
    intro st
    rw [List.foldl_cons, ih]
    rfl

theorem rpsFold_communityTotalPower (tok pps : Nat) :
    ∀ (l : List Nat) (st : DistState),
      (l.foldl (updateRPSStep tok pps) st).communityTotalPower =
        st.communityTotalPower := by
  intro l
  induction l with
  | nil => intro st; rfl
  | cons i rest ih =>
    intro st
    rw [List.foldl_cons, ih]
    rfl

theorem rpsFold_rps_notMem (tok pps : Nat) :
    ∀ (l : List Nat) (st : DistState) (j : Nat), j ∉ l →
      (l.foldl (updateRPSStep tok pps) st).rewardPerShare tok j =
        st.rewardPerShare tok j := by
  intro l
  induction l with
  | nil => intro st j _; rfl
  | cons i rest ih =>
    intro st j hj
    rw [List.foldl_cons, ih _ j (fun h => hj (List.mem_cons_of_mem i h))]
    rw [updateRPSStep_rps]
    rw [if_neg (show ¬ j = i from fun h => hj (by
      rw [h]; exact List.mem_cons_self i rest))]

theorem rpsFold_rps_mem (tok pps : Nat) :
    ∀ (l : List Nat), l.Nodup →
      ∀ (st : DistState) (j : Nat), j ∈ l →
        (l.foldl (updateRPSStep tok pps) st).rewardPerShare tok j =
          packBytes 24 (((st.rewardPerShare tok j : Int) +
            (pps : Int) * ((j : Int) - (((st.ranges j).2 : Nat) : Int))).natAbs) := by
  intro l
  induction l with
  | nil => intro _ st j hj; exact absurd hj (List.not_mem_nil j)
  | cons i rest ih =>
    intro hnd st j hj
    have hni : i ∉ rest := (List.nodup_cons.mp hnd).1
    have hnd' : rest.Nodup := (List.nodup_cons.mp hnd).2
    rw [List.foldl_cons]
    rcases List.mem_cons.mp hj with hji | hjr
    · subst hji
      rw [rpsFold_rps_notMem tok pps rest _ j hni]
      rw [updateRPSStep_rps, if_pos rfl]
    · have hne : j ≠ i := fun h => hni (h ▸ hjr)
      rw [ih hnd' _ j hjr]
      rw [updateRPSStep_ranges]
      rw [updateRPSStep_rps, if_neg hne]

theorem sortFold_rewardPerShare :
    ∀ (l : List Nat) (st : DistState) (e : Nat) (tp : Int),
      (l.foldl sortStep (st, e, tp)).1.rewardPerShare = st.rewardPerShare := by
  intro l
  induction l with
  | nil => intro st e tp; rfl
  | cons i rest ih =>
    intro st e tp
    rw [List.foldl_cons]
    have hstep : sortStep (st, e, tp) i =
        ((sortStep (st, e, tp) i).1, (sortStep (st, e, tp) i).2) := rfl
    rw [hstep, ih]
    rw [sortStep_fst]
    rfl

theorem sortFold_communityTotalPower :
    ∀ (l : List Nat) (st : DistState) (e : Nat) (tp : Int),
      (l.foldl sortStep (st, e, tp)).1.communityTotalPower =
        st.communityTotalPower := by
  intro l
  induction l with
  | nil => intro st e tp; rfl
  | cons i rest ih =>
    intro st e tp
    rw [List.foldl_cons]
    have hstep : sortStep (st, e, tp) i =
        ((sortStep (st, e, tp) i).1, (sortStep (st, e, tp) i).2) := rfl
    rw [hstep, ih]
    rw [sortStep_fst]
    rfl

theorem sortRanges_rewardPerShare (cfg : PoolCfg) (st : DistState) :
    (sortRanges cfg st).rewardPerShare = st.rewardPerShare := by
  unfold sortRanges
  exact sortFold_rewardPerShare _ st 0 0

theorem sortRanges_communityTotalPower (cfg : PoolCfg) (st : DistState) :
    (sortRanges cfg st).communityTotalPower = st.communityTotalPower := by
  unfold sortRanges
  exact sortFold_communityTotalPower _ st 0 0

/-- The `sort()` pass writes an `emptyRangeCount` of at most `j` into every
range `j` it visits: the running empty count entering index `j` counts a
subset of the earlier indices. -/
theorem sortFold_e_le :
    ∀ (b a : Nat) (st : DistState) (e : Nat) (tp : Int), e ≤ a →
      ∀ j ∈ List.range' a b,
        (((List.range' a b).foldl sortStep (st, e, tp)).1.ranges j).2 ≤ j := by
  intro b
  induction b with
  | zero => intro a st e tp _ j hj; exact absurd hj (by simp)
  | succ b ih =>
    intro a st e tp hea j hj
    rw [List.range'_succ] at hj ⊢
    rw [List.foldl_cons]
    have hstep : sortStep (st, e, tp) a =
        ((sortStep (st, e, tp) a).1, (sortStep (st, e, tp) a).2) := rfl
    rcases List.mem_cons.mp hj with hja | hjr
    · subst hja
      have hnotmem : j ∉ List.range' (j + 1) b := by
        intro hmem
        have := (List.mem_range'_1.mp hmem).1
        omega
      rw [hstep, sortFold_ranges_notMem _ _ _ _ j hnotmem]
      rw [sortStep_fst]
      unfold setRangeInfo
      simp only [Function.update_same]
      calc packBytes 3 e ≤ e := packBytes_le 3 e
      _ ≤ j := hea
    · have h2 : (sortStep (st, e, tp) a).2.1 ≤ a + 1 := by
        simp only [sortStep]
        split
        · simp
          omega
        · simp
          omega
      rw [hstep]
      exact ih (a + 1) _ _ _ h2 j hjr

/-- C7 (amended): for a fixed range index `i`, `UpdateRewardPerShares` with
non-negative rewards never decreases the stored per-share value at `i`,
provided index 0's `emptyRangeCount` is zero (it is never written, and the
buffer starts zero-filled) and the updated accumulator stays below the
24-byte capacity `2^192`; across successive calls the value is therefore
non-decreasing under the same no-overflow condition.  Without the overflow
condition the claim fails: see the counterexample, where the 24-byte write
keeps only the top bytes and the stored value drops. -/
theorem c7_rewardPerShare_monotone (cfg : PoolCfg) (st : DistState)
    (tok holderReward communityReward i : Nat)
    (he0 : (st.ranges 0).2 = 0)
    (hov : st.rewardPerShare tok i +
        holderReward / (sortRanges cfg st).holderTotalPower * i < 2 ^ 192) :
    st.rewardPerShare tok i ≤
      (updateRewardPerShares cfg st tok holderReward
        communityReward).rewardPerShare tok i := by
  simp only [updateRewardPerShares]
  set S := sortRanges cfg st with hS
  have hSrps : S.rewardPerShare = st.rewardPerShare :=
    sortRanges_rewardPerShare cfg st
  set pps := holderReward / S.holderTotalPower with hpps
  by_cases hp : 0 < S.holderTotalPower
  · rw [if_pos hp]
    set l := List.range' (cfg.rewardStartRangeIndex % 2 ^ 64)
      (rc64 cfg - cfg.rewardStartRangeIndex % 2 ^ 64) with hl
    have hnd : l.Nodup := List.nodup_range' _ _
    have hfold : st.rewardPerShare tok i ≤
        (l.foldl (updateRPSStep tok pps) S).rewardPerShare tok i := by
      by_cases hi : i ∈ l
      · rw [rpsFold_rps_mem tok pps l hnd S i hi, hSrps]
        have hei : (S.ranges i).2 ≤ i := by
          rcases Nat.eq_zero_or_pos i with hi0 | hi0
          · subst hi0
            have h0nm : (0:Nat) ∉ List.range' 1 (rc64 cfg - 1) := by
              intro hmem
              have := (List.mem_range'_1.mp hmem).1
              omega
            have hse : S.ranges 0 = st.ranges 0 := by
              rw [hS]
              unfold sortRanges
              exact sortFold_ranges_notMem _ st 0 0 0 h0nm
            rw [hse, he0]
          · have hilt : i < rc64 cfg := by
              have hm := List.mem_range'_1.mp (hl ▸ hi)
              omega
            have himem : i ∈ List.range' 1 (rc64 cfg - 1) := by
              rw [List.mem_range'_1]
              omega
            have hle := sortFold_e_le (rc64 cfg - 1) 1 st 0 0 (by omega) i himem
            rw [hS]
            unfold sortRanges
            exact hle
        have hcast : ((i : Int) - (((S.ranges i).2 : Nat) : Int)) =
            (((i - (S.ranges i).2 : Nat) : Nat) : Int) := by
          rw [Int.ofNat_sub hei]
        rw [hcast]
        have hnat : ((st.rewardPerShare tok i : Int) +
            (pps : Int) * (((i - (S.ranges i).2 : Nat) : Nat) : Int)).natAbs =
            st.rewardPerShare tok i + pps * (i - (S.ranges i).2) := by
          rw [← Nat.cast_mul, ← Nat.cast_add, Int.natAbs_ofNat]
        rw [hnat]
        have hmul : pps * (i - (S.ranges i).2) ≤ pps * i :=
          Nat.mul_le_mul_left pps (Nat.sub_le i _)
        have hbound : st.rewardPerShare tok i + pps * (i - (S.ranges i).2) <
            256 ^ 24 := by
          have h192 : (256 : Nat) ^ 24 = 2 ^ 192 := by norm_num
          omega
        rw [packBytes_eq_of_lt hbound]
        exact Nat.le_add_right _ _
      · rw [rpsFold_rps_notMem tok pps l S i hi, hSrps]
    by_cases hc : 0 < ((l.foldl (updateRPSStep tok pps) S)).communityTotalPower
    · rw [if_pos hc]
      exact hfold
    · rw [if_neg hc]
      exact hfold
  · rw [if_neg hp]
    by_cases hc : 0 < S.communityTotalPower
    · rw [if_pos hc]
      show st.rewardPerShare tok i ≤ S.rewardPerShare tok i
      rw [hSrps]
    · rw [if_neg hc]
      rw [hSrps]

/-- Pool configuration used by the C7 counterexample and witness: two
ranges, reward distribution starting at range 1, no reward tokens. -/
def c7Cfg : PoolCfg := ⟨2, 1, 1, [], false, fun _ => 0, fun _ => []⟩

/-- Ledger state used by the C7 counterexample and witness: one holder
counted in range 1, every accumulator zero. -/
def c7St : DistState :=
  ⟨fun j => if j = 1 then (1, 0) else (0, 0), fun _ _ => 0, 0, 0, fun _ => 0,
    fun _ => ⟨0, [], fun _ => (0, 0), fun _ => (0, 0)⟩, fun _ => none⟩

theorem c7_sort_eval (st : DistState) (htc : (st.ranges 1).1 = 1) :
    (sortRanges c7Cfg st).holderTotalPower = 1 ∧
    (sortRanges c7Cfg st).ranges 1 = (1, 0) := by
  have hl : List.range' 1 (rc64 c7Cfg - 1) = [1] := by decide
  have hfold : (List.range' 1 (rc64 c7Cfg - 1)).foldl sortStep (st, 0, 0) =
      (setRangeInfo st 1 ((st.ranges 1).1) 0, 0,
        0 + ((1 : Int) - ((0 : Nat) : Int)) * (((st.ranges 1).1 : Nat) : Int)) := by
    rw [hl]
    simp only [List.foldl_cons, List.foldl_nil]
    exact sortStep_eq_pos st 0 0 1 (by rw [htc]; norm_num)
  constructor
  · show storeWord
        ((List.range' 1 (rc64 c7Cfg - 1)).foldl sortStep (st, 0, 0)).2.2 = 1
    rw [hfold]
    rw [htc]
    norm_num [storeWord]
  · show ((List.range' 1 (rc64 c7Cfg - 1)).foldl sortStep (st, 0, 0)).1.ranges 1
        = (1, 0)
    rw [hfold]
    show (setRangeInfo st 1 ((st.ranges 1).1) 0).ranges 1 = (1, 0)
    unfold setRangeInfo
    simp only [Function.update_same]
    rw [htc]
    rw [packBytes_eq_of_lt (by norm_num : (1:Nat) < 256 ^ 4),
      packBytes_eq_of_lt (by norm_num : (0:Nat) < 256 ^ 3)]

theorem c7_rps_eval (st : DistState) (htc : (st.ranges 1).1 = 1)
    (hctp : st.communityTotalPower = 0) (hr : Nat) :
    (updateRewardPerShares c7Cfg st 0 hr 0).rewardPerShare 0 1 =
      packBytes 24 (st.rewardPerShare 0 1 + hr) ∧
    ((updateRewardPerShares c7Cfg st 0 hr 0).ranges 1).1 = 1 ∧
    (updateRewardPerShares c7Cfg st 0 hr 0).communityTotalPower = 0 := by
  obtain ⟨hhtp, hr1⟩ := c7_sort_eval st htc
  have hrps : (sortRanges c7Cfg st).rewardPerShare = st.rewardPerShare :=
    sortRanges_rewardPerShare c7Cfg st
  have hct : (sortRanges c7Cfg st).communityTotalPower = 0 := by
    rw [sortRanges_communityTotalPower c7Cfg st, hctp]
  have hll : List.range' (c7Cfg.rewardStartRangeIndex % 2 ^ 64)
      (rc64 c7Cfg - c7Cfg.rewardStartRangeIndex % 2 ^ 64) = [1] := by decide
  simp only [updateRewardPerShares]
  rw [hhtp]
  rw [if_pos (by norm_num : (0:Nat) < 1)]
  rw [hll]
  simp only [List.foldl_cons, List.foldl_nil, Nat.div_one]
  have hctp2 : ¬ 0 < (updateRPSStep 0 hr
      (sortRanges c7Cfg st) 1).communityTotalPower := by
    show ¬ 0 < (sortRanges c7Cfg st).communityTotalPower
    rw [hct]
    norm_num
  rw [if_neg hctp2]
  refine ⟨?_, ?_, ?_⟩
  · rw [updateRPSStep_rps, if_pos rfl]
    rw [hr1]
    rw [hrps]
    show packBytes 24 (((st.rewardPerShare 0 1 : Nat) : Int) +
      (hr : Int) * (((1:Nat) : Int) - ((0:Nat) : Int))).natAbs =
      packBytes 24 (st.rewardPerShare 0 1 + hr)
    congr 1
    have hcast : ((st.rewardPerShare 0 1 : Nat) : Int) +
        (hr : Int) * (((1:Nat) : Int) - ((0:Nat) : Int)) =
        ((st.rewardPerShare 0 1 + hr : Nat) : Int) := by
      push_cast
      ring
    rw [hcast, Int.natAbs_ofNat]
  · rw [updateRPSStep_ranges, hr1]
  · exact hct

/-- C7 counterexample: two successive `UpdateRewardPerShares` calls with
non-negative rewards on a two-range pool whose holder total power is `1`.
The first call (reward `2^192 - 1`) stores the accumulator `2^192 - 1` at
range 1; the second call (reward `1`) computes `2^192`, whose 25-byte
encoding is cropped to its top 24 bytes by the fixed-width write, storing
`2^184` — the stored reward-per-share value at range 1 decreases. -/
theorem c7_counterexample :
    (updateRewardPerShares c7Cfg
        (updateRewardPerShares c7Cfg c7St 0 (2 ^ 192 - 1) 0)
        0 1 0).rewardPerShare 0 1 <
      (updateRewardPerShares c7Cfg c7St 0 (2 ^ 192 - 1) 0).rewardPerShare 0 1 := by
  obtain ⟨h1v, h1tc, h1ctp⟩ := c7_rps_eval c7St (by decide) rfl (2 ^ 192 - 1)
  have h1v' : (updateRewardPerShares c7Cfg c7St 0
      (2 ^ 192 - 1) 0).rewardPerShare 0 1 = 2 ^ 192 - 1 := by
    rw [h1v]
    show packBytes 24 (0 + (2 ^ 192 - 1)) = 2 ^ 192 - 1
    rw [Nat.zero_add]
    exact packBytes_eq_of_lt (by norm_num)
  obtain ⟨h2v, _, _⟩ := c7_rps_eval
    (updateRewardPerShares c7Cfg c7St 0 (2 ^ 192 - 1) 0) h1tc h1ctp 1
  have hpk : packBytes 24 (2 ^ 192 - 1 + 1) = 2 ^ 184 := by
    have h192 : (2:Nat) ^ 192 - 1 + 1 = 2 ^ 192 := by norm_num
    rw [h192]
    have hb1 : byteLen (2 ^ 192) ≤ 25 := (byteLen_le_iff _ _).mpr (by norm_num)
    have hb2 : ¬ byteLen (2 ^ 192) ≤ 24 := by
      rw [byteLen_le_iff]
      norm_num
    unfold packBytes
    rw [if_neg hb2]
    have hbl : byteLen (2 ^ 192) = 25 := by omega
    rw [hbl]
    norm_num
  rw [h2v, h1v', hpk]
  norm_num

/-- Witness for `c7_rewardPerShare_monotone` on the two-range pool with a
small reward. -/
theorem c7_rewardPerShare_monotone_witness :
    (c7St.ranges 0).2 = 0 ∧
    c7St.rewardPerShare 0 1 +
      5 / (sortRanges c7Cfg c7St).holderTotalPower * 1 < 2 ^ 192 ∧
    c7St.rewardPerShare 0 1 ≤
      (updateRewardPerShares c7Cfg c7St 0 5 0).rewardPerShare 0 1 := by
  have h1 : (c7St.ranges 0).2 = 0 := rfl
  have h2 : c7St.rewardPerShare 0 1 +
      5 / (sortRanges c7Cfg c7St).holderTotalPower * 1 < 2 ^ 192 := by
    rw [(c7_sort_eval c7St (by decide)).1]
    show (0:Nat) + 5 / 1 * 1 < 2 ^ 192
    norm_num
  exact ⟨h1, h2, c7_rewardPerShare_monotone c7Cfg c7St 0 5 0 1 h1 h2⟩

/-! ## `updateAchievement` (`pool_distribution.go`, lines 326-438) -/

/-- The loop-guard test of `updateAchievement`'s traversals: an address may
be followed further only while it is neither the null address nor the burn
address. -/
def notSentinel (p : Nat) : Bool := !(p == 0 || p == burnAddr)

theorem notSentinel_iff (p : Nat) :
    notSentinel p = true ↔ p ≠ 0 ∧ p ≠ burnAddr := by
  simp [notSentinel]

/-- The ancestor chain gathered by the first loop of `updateAchievement`:
starting at the account itself, follow `ParentOf` until the null/burn
sentinel or the fuel (the fixed array size) runs out. -/
def buildChain (parentOf : Nat → Nat) : Nat → Nat → List Nat
  | 0, _ => []
  | fuel + 1, p =>
    if notSentinel p then p :: buildChain parentOf fuel (parentOf p) else []

/-- `forFathersList`: the fixed `TreeHeightMaxLimit`-entry array, zero
filled past the chain (a fresh Go array of `common.Address` is all zero
addresses). -/
def forFathersList (cfg : PoolCfg) (a : Nat) : List Nat :=
  buildChain cfg.parentOf treeHeightMaxLimit a ++
    List.replicate (treeHeightMaxLimit -
      (buildChain cfg.parentOf treeHeightMaxLimit a).length) 0

/-- The `(child, parent)` pairs processed by the second loop of
`updateAchievement`: adjacent entries of the fixed array (the loop runs
`childIndex < len - 1`, which is exactly the zip below, and breaks at the
first null/burn parent). -/
def achievementPairs (cfg : PoolCfg) (a : Nat) : List (Nat × Nat) :=
  ((forFathersList cfg a).zip (forFathersList cfg a).tail).takeWhile
    (fun pr : Nat × Nat => notSentinel pr.2)

/-- `GetChildrenHoldAmount` zero-extended to the current children count
(the Go loop appends `big.NewInt(0)` while the decoded vector is shorter
than the children list; a longer vector is kept as is). -/
def extendHolds (holds : List Int) (n : Nat) : List Int :=
  holds ++ List.replicate (n - holds.length) 0

/-- In-memory update of the matching child's slot:
`holds[i] = current + (holds[i] - origin)` at the first index whose child
identifier equals `child`; no change when the child does not appear. -/
def updateHoldAt (children : List Nat) (child : Nat) (origin current : Int)
    (holds : List Int) : List Int :=
  if child ∈ children then
    holds.set (children.indexOf child)
      (current + (holds.getD (children.indexOf child) 0 - origin))
  else holds

/-- Replace one account's stored user record. -/
def updUser (st : DistState) (x : Nat) (u : UserState) : DistState :=
  { st with users := Function.update st.users x u }

/-- `SetCommunityRewardInfo`: overwrite one reward token's stored
`(Reward, RewardDebt)` pair. -/
def userSetCommunityReward (u : UserState) (tok rw debt : Nat) : UserState :=
  { u with communityReward := Function.update u.communityReward tok (rw, debt) }

/-- `SetChildrenHoldAmount` followed by `SetCommunityPower`. -/
def userCommit (u : UserState) (holds : List Nat) (power : Nat) : UserState :=
  { u with childrenHold := holds, communityPower := power }

/-- One reward token's community-reward accrual inside the pair loop of
`updateAchievement`: `Reward += power * (communityPerShare - RewardDebt)`
and re-anchor the debt at the current community accumulator. -/
def communityRewardStep (parent : Nat) (s : DistState) (tok : Nat) :
    DistState :=
  let ri := (s.users parent).communityReward tok
  let communityPerShare := s.communityAccRewardPerShare tok
  let reward : Int := (ri.1 : Int) +
    ((s.users parent).communityPower : Int) *
      ((communityPerShare : Int) - (ri.2 : Int))
  updUser s parent (userSetCommunityReward (s.users parent) tok
    (storeWord reward) (storeWord (communityPerShare : Int)))

/-- One `(child, parent)` iteration of the second loop of
`updateAchievement`: extend and update the parent's children-hold vector,
accrue the parent's community reward for every reward token (pro-rata
against the community accumulator, weighted by the parent's stored power,
which the loop does not modify), recompute the parent's community power
over the updated vector, move the pool's community total power by the
delta, then store the new vector (16-byte entries) and power. -/
def processPair (cfg : PoolCfg) (origin current : Int) (st : DistState)
    (pr : Nat × Nat) : DistState :=
  let parent := pr.2
  let children := cfg.childrenOf parent
  let holds := updateHoldAt children pr.1 origin current
    (extendHolds (((st.users parent).childrenHold).map (fun v => (v : Int)))
      children.length)
  let st1 := cfg.rewardTokens.foldl (communityRewardStep parent) st
  let currentActivePower := communityPower holds
  let newTotal : Int := (st1.communityTotalPower : Int) +
    (currentActivePower : Int) - ((st1.users parent).communityPower : Int)
  let st2 := { st1 with communityTotalPower := storeWord newTotal }
  updUser st2 parent (userCommit (st2.users parent)
    (holds.map (fun v => packBytes 16 v.natAbs))
    (storeWord (currentActivePower : Int)))

/-- `updateAchievement`: fold the pair processing over the pairs gathered
from the fixed 200-entry ancestor array.  The function is total by
construction: the traversal is bounded by the array length for every tree
shape, cyclic parent pointers included. -/
def updateAchievement (cfg : PoolCfg) (st : DistState) (a : Nat)
    (origin current : Int) : DistState :=
  (achievementPairs cfg a).foldl (processPair cfg origin current) st

/-- The parents actually processed by `updateAchievement`, in order. -/
def processedParents (cfg : PoolCfg) (a : Nat) : List Nat :=
  (achievementPairs cfg a).map (fun pr : Nat × Nat => pr.2)

theorem buildChain_length_le (parentOf : Nat → Nat) :
    ∀ (fuel p : Nat), (buildChain parentOf fuel p).length ≤ fuel := by
  intro fuel
  induction fuel with
  | zero => intro p; simp [buildChain]
  | succ fuel ih =>
    intro p
    unfold buildChain
    split
    · simpa using ih (parentOf p)
    · simp

theorem buildChain_eq_takeWhile (parentOf : Nat → Nat) :
    ∀ (fuel p : Nat),
      buildChain parentOf fuel p =
        ((List.range fuel).map (fun k => parentOf^[k] p)).takeWhile
          notSentinel := by
  intro fuel
  induction fuel with
  | zero => intro p; rfl
  | succ fuel ih =>
    intro p
    rw [List.range_succ_eq_map]
    rw [List.map_cons, List.map_map]
    rw [List.takeWhile_cons]
    unfold buildChain
    by_cases hs : notSentinel p = true
    · rw [if_pos hs]
      rw [if_pos (show notSentinel (parentOf^[0] p) = true from hs)]
      have hmap : List.map ((fun k => parentOf^[k] p) ∘ Nat.succ)
          (List.range fuel) =
          List.map (fun k => parentOf^[k] (parentOf p)) (List.range fuel) := by
        apply List.map_congr_left
        intro k _
        show parentOf^[k + 1] p = parentOf^[k] (parentOf p)
        rw [Function.iterate_succ_apply]
      rw [hmap, ← ih (parentOf p)]
      rfl
    · rw [if_neg hs,
        if_neg (show ¬ notSentinel (parentOf^[0] p) = true from hs)]

theorem buildChain_notSentinel (parentOf : Nat → Nat) :
    ∀ (fuel p : Nat) (x : Nat), x ∈ buildChain parentOf fuel p →
      notSentinel x = true := by
  intro fuel
  induction fuel with
  | zero => intro p x hx; simp [buildChain] at hx
  | succ fuel ih =>
    intro p x hx
    unfold buildChain at hx
    by_cases hs : notSentinel p = true
    · rw [if_pos hs] at hx
      rcases List.mem_cons.mp hx with h | h
      · subst h; exact hs
      · exact ih (parentOf p) x h
    · rw [if_neg hs] at hx
      simp at hx

/-- Projecting the processed pairs of the padded array onto their parent
components yields exactly the tail of the raw chain. -/
theorem padded_pairs_parents :
    ∀ (c : List Nat), (∀ x ∈ c, notSentinel x = true) → ∀ (k : Nat),
      (((c ++ List.replicate k 0).zip
          (c ++ List.replicate k 0).tail).takeWhile
        (fun pr : Nat × Nat => notSentinel pr.2)).map
          (fun pr : Nat × Nat => pr.2) = c.tail := by
  intro c
  induction c with
  | nil =>
    intro _ k
    match k with
    | 0 => rfl
    | 1 => rfl
    | k + 2 =>
      show List.map (fun pr : Nat × Nat => pr.2)
        (List.takeWhile (fun pr : Nat × Nat => notSentinel pr.2)
          (((0 : Nat) :: List.replicate (k + 1) 0).zip
            (List.replicate (k + 1) 0))) = []
      rw [List.replicate_succ]
      rw [List.zip_cons_cons, List.takeWhile_cons]
      rw [if_neg (by simp [notSentinel])]
      rfl
  | cons x c' ih =>
    intro hns k
    have hx : notSentinel x = true := hns x (List.mem_cons_self x c')
    match c', k with
    | [], 0 => rfl
    | [], k + 1 =>
      show List.map (fun pr : Nat × Nat => pr.2)
        (List.takeWhile (fun pr : Nat × Nat => notSentinel pr.2)
          ((x :: ((0 : Nat) :: List.replicate k 0)).zip
            ((0 : Nat) :: List.replicate k 0))) = []
      rw [List.zip_cons_cons, List.takeWhile_cons]
      rw [if_neg (by simp [notSentinel])]
      rfl
    | y :: c'', k =>
      have hy : notSentinel y = true :=
        hns y (List.mem_cons_of_mem x (List.mem_cons_self y c''))
      have hns' : ∀ z ∈ y :: c'', notSentinel z = true := fun z hz =>
        hns z (List.mem_cons_of_mem x hz)
      show List.map (fun pr : Nat × Nat => pr.2)
        (List.takeWhile (fun pr : Nat × Nat => notSentinel pr.2)
          ((x :: (y :: (c'' ++ List.replicate k 0))).zip
            (y :: (c'' ++ List.replicate k 0)))) = y :: c''
      rw [List.zip_cons_cons, List.takeWhile_cons]
      rw [if_pos (show (fun pr : Nat × Nat => notSentinel pr.2) (x, y) = true
        from hy)]
      rw [List.map_cons]
      have hih := ih hns' k
      rw [List.cons_append, List.tail_cons] at hih
      rw [show List.map (fun pr : Nat × Nat => pr.2)
        (List.takeWhile (fun pr : Nat × Nat => notSentinel pr.2)
          ((y :: (c'' ++ List.replicate k 0)).zip
            (c'' ++ List.replicate k 0))) = (y :: c'').tail
        from hih]
      rfl

/-- C8: `updateAchievement` terminates on every address-tree shape (the
embedding is total by construction, chains longer than the limit and cyclic
parent pointers included); the gathered ancestor array always has exactly
`TreeHeightMaxLimit = 200` entries; the parents actually processed are
exactly the non-sentinel prefix of the iterated-`ParentOf` sequence
truncated at 200 entries, with the account itself removed — so no ancestor
beyond the 200-entry bound or beyond the first null/burn sentinel is ever
processed, and at most 199 parents are updated. -/
theorem c8_updateAchievement_bounded (cfg : PoolCfg) (a : Nat) :
    (forFathersList cfg a).length = treeHeightMaxLimit ∧
    processedParents cfg a =
      (((List.range treeHeightMaxLimit).map
        (fun k => cfg.parentOf^[k] a)).takeWhile notSentinel).tail ∧
    (processedParents cfg a).length ≤ treeHeightMaxLimit - 1 := by
  have hlen : (forFathersList cfg a).length = treeHeightMaxLimit := by
    unfold forFathersList
    rw [List.length_append, List.length_replicate]
    have := buildChain_length_le cfg.parentOf treeHeightMaxLimit a
    omega
  have hpp : processedParents cfg a =
      (buildChain cfg.parentOf treeHeightMaxLimit a).tail := by
    unfold processedParents achievementPairs forFathersList
    exact padded_pairs_parents (buildChain cfg.parentOf treeHeightMaxLimit a)
      (buildChain_notSentinel cfg.parentOf treeHeightMaxLimit a) _
  refine ⟨hlen, ?_, ?_⟩
  · rw [hpp, buildChain_eq_takeWhile]
  · rw [hpp]
    rw [List.length_tail]
    have := buildChain_length_le cfg.parentOf treeHeightMaxLimit a
    omega

/-! ## `updateAccountBalance` (`pool_distribution.go`, lines 268-324) -/

/-- The range index assigned to a balance: the `big.Int` quotient
`amount / rangeInterval` (Euclidean division, as `big.Int.Div`) read back
through `Uint64()`, then clamped by the `uint64` comparison against
`GetRangeCount().Uint64() - 1` (wrapping subtraction). -/
def bucketIdx (cfg : PoolCfg) (amount : Int) : Nat :=
  let idx := goUint64 (amount.ediv (cfg.rangeInterval : Int))
  let cap := (rc64 cfg + (2 ^ 64 - 1)) % 2 ^ 64
  if cap < idx then cap else idx

/-- The `big.Int` holder reward computed for one token when an account's
bucket changes: `Reward + (originRangePerShare - RewardDebt)` — negative
whenever the stored debt exceeds the origin bucket's accumulator plus the
accrued reward. -/
def computedHolderReward (st : DistState) (frm oIdx tok : Nat) : Int :=
  ((((st.users frm).holderReward tok).1 : Nat) : Int) +
    ((st.rewardPerShare tok oIdx : Nat) : Int) -
      ((((st.users frm).holderReward tok).2 : Nat) : Int)

/-- `SetHolderRewardInfo`: overwrite one reward token's stored holder
`(Reward, RewardDebt)` pair. -/
def userSetHolderReward (u : UserState) (tok rw debt : Nat) : UserState :=
  { u with holderReward := Function.update u.holderReward tok (rw, debt) }

/-- One reward token of the bucket-change loop of `updateAccountBalance`:
compute the pending reward against the origin bucket's accumulator, clamp a
negative result to zero once the 0815 fork is active, and store it together
with the destination bucket's accumulator as the new debt (both through
32-byte storage words). -/
def holderRewardStep (cfg : PoolCfg) (frm oIdx cIdx : Nat)
    (st : DistState) (tok : Nat) : DistState :=
  let r0 := computedHolderReward st frm oIdx tok
  let r := if cfg.isFork0815 ∧ r0 < 0 then 0 else r0
  updUser st frm (userSetHolderReward (st.users frm) tok (storeWord r)
    (storeWord ((st.rewardPerShare tok cIdx : Nat) : Int)))

/-- `updateAccountBalance` (`pool_distribution.go`, lines 268-324): cache
the new balance, map both balances to their range indices; on a bucket
change decrement the origin bucket's `totalCount` (only when positive),
increment the destination bucket's, write both records back, and settle
every reward token's holder reward; on an unchanged bucket seed a genesis
record when its count is still zero.  Finally run `updateAchievement`. -/
def updateAccountBalance (cfg : PoolCfg) (st0 : DistState) (frm : Nat)
    (originAmount currentAmount : Int) : DistState :=
  let bc := Function.update st0.balanceCache frm (some currentAmount)
  let stc : DistState := { st0 with balanceCache := bc }
  let oIdx := bucketIdx cfg originAmount
  let cIdx := bucketIdx cfg currentAmount
  let st1 :=
    if oIdx ≠ cIdx then
      let oInfo := stc.ranges oIdx
      let cInfo := stc.ranges cIdx
      let oTc := if 0 < oInfo.1 then oInfo.1 - 1 else oInfo.1
      let stA := setRangeInfo stc oIdx oTc oInfo.2
      let stB := setRangeInfo stA cIdx (cInfo.1 + 1) cInfo.2
      cfg.rewardTokens.foldl (holderRewardStep cfg frm oIdx cIdx) stB
    else
      if (stc.ranges oIdx).1 = 0 then
        setRangeInfo stc oIdx 1 (stc.ranges oIdx).2
      else stc
  updateAchievement cfg st1 frm originAmount currentAmount

theorem foldl_preserves {α β : Type} (g : DistState → β)
    (f : DistState → α → DistState) (hf : ∀ s a, g (f s a) = g s) :
    ∀ (l : List α) (s : DistState), g (l.foldl f s) = g s := by
  intro l
  induction l with
  | nil => intro s; rfl
  | cons a rest ih =>
      intro s
      rw [List.foldl_cons, ih, hf]

theorem communityRewardStep_ranges (p : Nat) (s : DistState) (tok : Nat) :
    (communityRewardStep p s tok).ranges = s.ranges := rfl

theorem communityRewardStep_holderReward (p : Nat) (s : DistState)
    (tok x : Nat) :
    ((communityRewardStep p s tok).users x).holderReward =
      (s.users x).holderReward := by
  simp only [communityRewardStep, updUser, userSetCommunityReward]
  by_cases h : x = p
  · subst h
    simp [Function.update_same]
  · simp [Function.update_noteq h]

theorem processPair_ranges (cfg : PoolCfg) (o c : Int) (st : DistState)
    (pr : Nat × Nat) : (processPair cfg o c st pr).ranges = st.ranges := by
  show (cfg.rewardTokens.foldl (communityRewardStep pr.2) st).ranges = st.ranges
  exact foldl_preserves (fun s => s.ranges) (communityRewardStep pr.2)
    (fun s a => communityRewardStep_ranges pr.2 s a) cfg.rewardTokens st

theorem processPair_holderReward (cfg : PoolCfg) (o c : Int) (st : DistState)
    (pr : Nat × Nat) (x : Nat) :
    ((processPair cfg o c st pr).users x).holderReward =
      (st.users x).holderReward := by
  have hfold := foldl_preserves (fun s => fun y => (s.users y).holderReward)
    (communityRewardStep pr.2)
    (fun s a => funext fun y => communityRewardStep_holderReward pr.2 s a y)
    cfg.rewardTokens st
  simp only [processPair, updUser]
  by_cases hx : x = pr.2
  · subst hx
    rw [Function.update_same]
    show ((cfg.rewardTokens.foldl (communityRewardStep pr.2) st).users pr.2).holderReward =
      (st.users pr.2).holderReward
    exact congrFun hfold pr.2
  · rw [Function.update_noteq hx]
    exact congrFun hfold x

theorem updateAchievement_ranges (cfg : PoolCfg) (st : DistState) (a : Nat)
    (o c : Int) : (updateAchievement cfg st a o c).ranges = st.ranges :=
  foldl_preserves (fun s => s.ranges) (processPair cfg o c)
    (fun s pr => processPair_ranges cfg o c s pr) (achievementPairs cfg a) st

theorem updateAchievement_holderReward (cfg : PoolCfg) (st : DistState)
    (a : Nat) (o c : Int) (x : Nat) :
    ((updateAchievement cfg st a o c).users x).holderReward =
      (st.users x).holderReward :=
  congrFun (foldl_preserves (fun s => fun y => (s.users y).holderReward)
    (processPair cfg o c)
    (fun s pr => funext fun y => processPair_holderReward cfg o c s pr y)
    (achievementPairs cfg a) st) x

theorem holderRewardStep_ranges (cfg : PoolCfg) (frm o c : Nat)
    (st : DistState) (tok : Nat) :
    (holderRewardStep cfg frm o c st tok).ranges = st.ranges := rfl

theorem holderRewardStep_rps (cfg : PoolCfg) (frm o c : Nat)
    (st : DistState) (tok : Nat) :
    (holderRewardStep cfg frm o c st tok).rewardPerShare =
      st.rewardPerShare := rfl

theorem holderRewardStep_hr (cfg : PoolCfg) (frm o c : Nat) (st : DistState)
    (tok tok' : Nat) :
    ((holderRewardStep cfg frm o c st tok).users frm).holderReward tok' =
      if tok' = tok then
        (storeWord (if cfg.isFork0815 ∧ computedHolderReward st frm o tok < 0
            then 0 else computedHolderReward st frm o tok),
         storeWord ((st.rewardPerShare tok c : Nat) : Int))
      else (st.users frm).holderReward tok' := by
  simp only [holderRewardStep, updUser, userSetHolderReward,
    Function.update_same]
  by_cases h : tok' = tok
  · subst h
    rw [if_pos rfl, Function.update_same]
  · rw [if_neg h, Function.update_noteq h]

theorem hrFold_notMem (cfg : PoolCfg) (frm o c : Nat) :
    ∀ (l : List Nat) (st : DistState) (tok : Nat), tok ∉ l →
      ((l.foldl (holderRewardStep cfg frm o c) st).users frm).holderReward tok
        = (st.users frm).holderReward tok := by
  intro l
  induction l with
  | nil => intro st tok _; rfl
  | cons t rest ih =>
      intro st tok htok
      rw [List.foldl_cons,
        ih _ tok (fun hm => htok (List.mem_cons_of_mem t hm)),
        holderRewardStep_hr,
        if_neg (fun h => htok (by rw [h]; exact List.mem_cons_self t rest))]

theorem computedHolderReward_step_ne (cfg : PoolCfg) (frm o c : Nat)
    (st : DistState) (t tok : Nat) (h : tok ≠ t) :
    computedHolderReward (holderRewardStep cfg frm o c st t) frm o tok =
      computedHolderReward st frm o tok := by
  unfold computedHolderReward
  rw [holderRewardStep_hr, if_neg h, holderRewardStep_rps]

theorem hrFold_mem (cfg : PoolCfg) (frm o c : Nat) :
    ∀ (l : List Nat), l.Nodup → ∀ (st : DistState) (tok : Nat), tok ∈ l →
      ((l.foldl (holderRewardStep cfg frm o c) st).users frm).holderReward tok
        = (storeWord
             (if cfg.isFork0815 ∧ computedHolderReward st frm o tok < 0
              then 0 else computedHolderReward st frm o tok),
           storeWord ((st.rewardPerShare tok c : Nat) : Int)) := by
  intro l
  induction l with
  | nil => intro _ st tok h; exact absurd h (List.not_mem_nil tok)
  | cons t rest ih =>
      intro hnd st tok htok
      rw [List.foldl_cons]
      rcases List.mem_cons.mp htok with h | h
      · subst h
        rw [hrFold_notMem cfg frm o c rest _ tok
            (List.nodup_cons.mp hnd).1,
          holderRewardStep_hr, if_pos rfl]
      · have hne : tok ≠ t := fun he =>
          (List.nodup_cons.mp hnd).1 (by rw [← he]; exact h)
        rw [ih (List.nodup_cons.mp hnd).2 _ tok h,
          computedHolderReward_step_ne cfg frm o c st t tok hne,
          holderRewardStep_rps]

/-- C9: once the 0815 fork flag is set, the holder reward stored by
`updateAccountBalance` for every reward token on a bucket change is the
computed `Reward + (originPerShare - RewardDebt)` clamped to zero from
below (`Int.toNat`) before being written as a storage word, and the new
debt is the destination bucket's accumulator; in particular no negative
computed reward is ever persisted. -/
theorem c9_fork0815_reward_clamp (cfg : PoolCfg) (st : DistState)
    (frm : Nat) (origin current : Int) (tok : Nat)
    (hfork : cfg.isFork0815 = true)
    (hnd : cfg.rewardTokens.Nodup)
    (htok : tok ∈ cfg.rewardTokens)
    (hne : bucketIdx cfg origin ≠ bucketIdx cfg current) :
    (((updateAccountBalance cfg st frm origin current).users frm).holderReward
        tok).1 =
      (computedHolderReward st frm (bucketIdx cfg origin) tok).toNat %
        2 ^ 256 ∧
    (((updateAccountBalance cfg st frm origin current).users frm).holderReward
        tok).2 =
      st.rewardPerShare tok (bucketIdx cfg current) % 2 ^ 256 := by
  simp only [updateAccountBalance]
  rw [updateAchievement_holderReward, if_pos hne,
    hrFold_mem cfg frm (bucketIdx cfg origin) (bucketIdx cfg current)
      cfg.rewardTokens hnd _ tok htok]
  constructor
  · show storeWord
        (if cfg.isFork0815 ∧
            computedHolderReward st frm (bucketIdx cfg origin) tok < 0
         then 0 else computedHolderReward st frm (bucketIdx cfg origin) tok) =
      (computedHolderReward st frm (bucketIdx cfg origin) tok).toNat % 2 ^ 256
    generalize computedHolderReward st frm (bucketIdx cfg origin) tok = r
    unfold storeWord
    split_ifs with h
    · obtain ⟨-, hneg⟩ := h
      omega
    · have hge : ¬ r < 0 := fun hr => h ⟨hfork, hr⟩
      omega
  · show storeWord
        ((st.rewardPerShare tok (bucketIdx cfg current) : Nat) : Int) =
      st.rewardPerShare tok (bucketIdx cfg current) % 2 ^ 256
    unfold storeWord
    omega

/-- All-zero user record. -/
def zeroUser : UserState := ⟨0, [], fun _ => (0, 0), fun _ => (0, 0)⟩

/-- All-zero distribution state. -/
def zeroDist : DistState :=
  ⟨fun _ => (0, 0), fun _ _ => 0, 0, 0, fun _ => 0, fun _ => zeroUser,
   fun _ => none⟩

/-- Pool used to witness C9: ten ranges of width 1, one reward token `7`,
0815 fork active, a tree with no parents. -/
def c9Cfg : PoolCfg := ⟨10, 1, 1, [7], true, fun _ => 0, fun _ => []⟩

/-- State used to witness C9: account `1` owes a reward debt of 5 while all
accumulators are zero, so its computed reward is `-5`. -/
def c9St : DistState :=
  ⟨fun _ => (0, 0), fun _ _ => 0, 0, 0, fun _ => 0,
   fun _ => ⟨0, [], fun _ => (0, 5), fun _ => (0, 0)⟩, fun _ => none⟩

theorem c9_fork0815_reward_clamp_witness :
    c9Cfg.isFork0815 = true ∧ c9Cfg.rewardTokens.Nodup ∧
    7 ∈ c9Cfg.rewardTokens ∧ bucketIdx c9Cfg 0 ≠ bucketIdx c9Cfg 2 ∧
    computedHolderReward c9St 1 (bucketIdx c9Cfg 0) 7 = -5 ∧
    (((updateAccountBalance c9Cfg c9St 1 0 2).users 1).holderReward 7).1 = 0 :=
  ⟨rfl, by decide, by decide, by decide, by decide, by
    have h := c9_fork0815_reward_clamp c9Cfg c9St 1 0 2 7 rfl (by decide)
      (by decide) (by decide)
    rw [h.1]
    decide⟩

theorem setRangeInfo_ranges (st : DistState) (i j : Nat) (tc e : Nat) :
    (setRangeInfo st i tc e).ranges j =
      if j = i then (packBytes 4 tc, packBytes 3 e) else st.ranges j := by
  unfold setRangeInfo
  by_cases h : j = i
  · subst h
    show Function.update st.ranges j (packBytes 4 tc, packBytes 3 e) j = _
    rw [Function.update_same, if_pos rfl]
  · show Function.update st.ranges i (packBytes 4 tc, packBytes 3 e) j = _
    rw [Function.update_noteq h, if_neg h]

theorem bucketIdx_lt (cfg : PoolCfg) (amt : Int) (hrc1 : 1 ≤ cfg.rangeCount)
    (hrc64 : cfg.rangeCount < 2 ^ 64) :
    bucketIdx cfg amt < cfg.rangeCount := by
  have hcap : (rc64 cfg + (2 ^ 64 - 1)) % 2 ^ 64 = cfg.rangeCount - 1 := by
    unfold rc64
    omega
  simp only [bucketIdx]
  rw [hcap]
  split <;> omega

/-- Pool of the C4 counterexample: ten ranges of width 1. -/
def c4TruncCfg : PoolCfg := ⟨10, 1, 1, [], false, fun _ => 0, fun _ => []⟩

/-- C4 counterexample: the claim's bucket index — the exact quotient
`floor(amount / rangeInterval)` clamped to `rangeCount - 1` — is wrong for
a balance of `2^64` range widths: the exact clamped index is 9 while the
code truncates the quotient through `Uint64()` *before* clamping and lands
in bucket 0, so the destination bucket 9 predicted by the claim is never
incremented. -/
theorem c4_counterexample :
    ((2 : Int) ^ 64).ediv ((c4TruncCfg.rangeInterval : Nat) : Int) =
      2 ^ 64 ∧
    min (((2 : Int) ^ 64).toNat) (c4TruncCfg.rangeCount - 1) = 9 ∧
    bucketIdx c4TruncCfg (2 ^ 64) = 0 ∧
    ((updateAccountBalance c4TruncCfg zeroDist 1 0 (2 ^ 64)).ranges 9).1 ≠
      (zeroDist.ranges 9).1 + 1 := by
  refine ⟨by decide, by decide, by decide, ?_⟩
  decide

/-- C4 (amended): with the bucket index the code actually computes — the
quotient truncated to `uint64` *before* the clamp (`bucketIdx`) — an update
whose two indices differ decrements the origin bucket's `totalCount` floored
at zero (`Nat` subtraction), increments the destination bucket's, and leaves
both `emptyRangeCount` fields unchanged, provided the stored counts fit
their 4-byte field and the empty counts their 3-byte field. -/
theorem c4_bucket_change_counts (cfg : PoolCfg) (st : DistState) (frm : Nat)
    (o c : Int)
    (hne : bucketIdx cfg o ≠ bucketIdx cfg c)
    (hwfO : (st.ranges (bucketIdx cfg o)).1 < 256 ^ 4)
    (hwfC : (st.ranges (bucketIdx cfg c)).1 + 1 < 256 ^ 4)
    (heO : (st.ranges (bucketIdx cfg o)).2 < 256 ^ 3)
    (heC : (st.ranges (bucketIdx cfg c)).2 < 256 ^ 3) :
    (updateAccountBalance cfg st frm o c).ranges (bucketIdx cfg o) =
      ((st.ranges (bucketIdx cfg o)).1 - 1, (st.ranges (bucketIdx cfg o)).2) ∧
    (updateAccountBalance cfg st frm o c).ranges (bucketIdx cfg c) =
      ((st.ranges (bucketIdx cfg c)).1 + 1, (st.ranges (bucketIdx cfg c)).2)
    := by
  have hfr : ∀ (l : List Nat) (s : DistState),
      (l.foldl (holderRewardStep cfg frm (bucketIdx cfg o) (bucketIdx cfg c))
        s).ranges = s.ranges :=
    fun l s => foldl_preserves (fun x => x.ranges)
      (holderRewardStep cfg frm (bucketIdx cfg o) (bucketIdx cfg c))
      (fun s t => holderRewardStep_ranges cfg frm _ _ s t) l s
  simp only [updateAccountBalance]
  rw [updateAchievement_ranges, if_pos hne, hfr]
  constructor
  · rw [setRangeInfo_ranges, if_neg hne, setRangeInfo_ranges, if_pos rfl]
    rw [Prod.mk.injEq]
    constructor
    · by_cases h0 : 0 < (st.ranges (bucketIdx cfg o)).1
      · rw [if_pos h0]
        rw [packBytes_eq_of_lt (by omega)]
      · rw [if_neg h0]
        rw [packBytes_eq_of_lt (by omega)]
        omega
    · exact packBytes_eq_of_lt heO
  · rw [setRangeInfo_ranges, if_pos rfl]
    rw [Prod.mk.injEq]
    exact ⟨packBytes_eq_of_lt hwfC, packBytes_eq_of_lt heC⟩

/-- Pool of the C4 witness: the spec scenario `rangeCount = 10`,
`rangeInterval = 100` whole tokens. -/
def c4Cfg : PoolCfg := ⟨10, 100, 1, [], false, fun _ => 0, fun _ => []⟩

theorem c4_bucket_change_counts_witness :
    bucketIdx c4Cfg 0 = 0 ∧ bucketIdx c4Cfg 250 = 2 ∧
    (updateAccountBalance c4Cfg zeroDist 1 0 250).ranges (bucketIdx c4Cfg 0) =
      ((zeroDist.ranges (bucketIdx c4Cfg 0)).1 - 1,
        (zeroDist.ranges (bucketIdx c4Cfg 0)).2) ∧
    (updateAccountBalance c4Cfg zeroDist 1 0 250).ranges
        (bucketIdx c4Cfg 250) =
      ((zeroDist.ranges (bucketIdx c4Cfg 250)).1 + 1,
        (zeroDist.ranges (bucketIdx c4Cfg 250)).2) :=
  ⟨by decide, by decide,
    (c4_bucket_change_counts c4Cfg zeroDist 1 0 250 (by decide) (by decide)
      (by decide) (by decide) (by decide)).1,
    (c4_bucket_change_counts c4Cfg zeroDist 1 0 250 (by decide) (by decide)
      (by decide) (by decide) (by decide)).2⟩

/-- One call of a block's `updateAccountBalance` sequence:
`(account, originAmount, currentAmount)`. -/
def applyBalanceCall (cfg : PoolCfg) (st : DistState)
    (ev : Nat × Int × Int) : DistState :=
  updateAccountBalance cfg st ev.1 ev.2.1 ev.2.2

/-- A whole sequence of `updateAccountBalance` calls. -/
def runBalanceCalls (cfg : PoolCfg) (st0 : DistState)
    (calls : List (Nat × Int × Int)) : DistState :=
  calls.foldl (applyBalanceCall cfg) st0

/-- The sum of every range's stored `totalCount`. -/
def sumTotalCount (cfg : PoolCfg) (st : DistState) : Nat :=
  ((List.range cfg.rangeCount).map (fun i => (st.ranges i).1)).sum

theorem sum_map_if_update {g : Nat → Nat} {b : Nat} :
    ∀ (l : List Nat), l.Nodup → ∀ i ∈ l,
      (l.map (fun j => if j = i then b else g j)).sum + g i =
        (l.map g).sum + b := by
  intro l
  induction l with
  | nil => intro _ i hi; exact absurd hi (List.not_mem_nil i)
  | cons a t ih =>
      intro hnd i hi
      rw [List.map_cons, List.map_cons, List.sum_cons, List.sum_cons]
      rcases List.mem_cons.mp hi with h | h
      · subst h
        rw [if_pos rfl]
        have hnotin : i ∉ t := (List.nodup_cons.mp hnd).1
        have hmap : (t.map (fun j => if j = i then b else g j)) = t.map g :=
          List.map_congr_left
            (fun j hj => if_neg (fun hji => hnotin (by rw [← hji]; exact hj)))
        rw [hmap]
        omega
      · have hne : a ≠ i := fun he =>
          (List.nodup_cons.mp hnd).1 (by rw [he]; exact h)
        rw [if_neg hne]
        have := ih (List.nodup_cons.mp hnd).2 i h
        omega

theorem tc_mem_le_sum (cfg : PoolCfg) (st : DistState) (i : Nat)
    (hi : i < cfg.rangeCount) :
    (st.ranges i).1 ≤ sumTotalCount cfg st := by
  unfold sumTotalCount
  exact List.single_le_sum (fun x _ => Nat.zero_le x) _
    (List.mem_map.mpr ⟨i, List.mem_range.mpr hi, rfl⟩)

theorem sumTotalCount_set (cfg : PoolCfg) (st : DistState) (i : Nat)
    (hi : i < cfg.rangeCount) (tc e : Nat) :
    sumTotalCount cfg (setRangeInfo st i tc e) + (st.ranges i).1 =
      sumTotalCount cfg st + packBytes 4 tc := by
  have h1 : sumTotalCount cfg (setRangeInfo st i tc e) =
      ((List.range cfg.rangeCount).map
        (fun j => if j = i then packBytes 4 tc else (st.ranges j).1)).sum := by
    unfold sumTotalCount
    congr 1
    refine List.map_congr_left (fun j hj => ?_)
    rw [setRangeInfo_ranges]
    by_cases h : j = i
    · rw [if_pos h, if_pos h]
    · rw [if_neg h, if_neg h]
  rw [h1]
  exact sum_map_if_update (List.range cfg.rangeCount)
    (List.nodup_range cfg.rangeCount) i (List.mem_range.mpr hi)

theorem updateAccountBalance_sum_le (cfg : PoolCfg) (st : DistState)
    (frm : Nat) (o c : Int)
    (hrc1 : 1 ≤ cfg.rangeCount) (hrc64 : cfg.rangeCount < 2 ^ 64)
    (hsum : sumTotalCount cfg st + 1 < 256 ^ 4) :
    sumTotalCount cfg (updateAccountBalance cfg st frm o c) ≤
      sumTotalCount cfg st + 1 := by
  have hoI := bucketIdx_lt cfg o hrc1 hrc64
  have hcI := bucketIdx_lt cfg c hrc1 hrc64
  have hach : ∀ s, sumTotalCount cfg (updateAchievement cfg s frm o c) =
      sumTotalCount cfg s := by
    intro s
    unfold sumTotalCount
    rw [updateAchievement_ranges]
  have hfoldr : ∀ (l : List Nat) (s : DistState),
      sumTotalCount cfg
        (l.foldl (holderRewardStep cfg frm (bucketIdx cfg o)
          (bucketIdx cfg c)) s) = sumTotalCount cfg s := by
    intro l s
    unfold sumTotalCount
    rw [foldl_preserves (fun x => x.ranges)
      (holderRewardStep cfg frm (bucketIdx cfg o) (bucketIdx cfg c))
      (fun s t => holderRewardStep_ranges cfg frm _ _ s t) l s]
  simp only [updateAccountBalance]
  rw [hach]
  by_cases hb : bucketIdx cfg o ≠ bucketIdx cfg c
  · rw [if_pos hb, hfoldr]
    show sumTotalCount cfg
        (setRangeInfo
          (setRangeInfo st (bucketIdx cfg o)
            (if 0 < (st.ranges (bucketIdx cfg o)).1
             then (st.ranges (bucketIdx cfg o)).1 - 1
             else (st.ranges (bucketIdx cfg o)).1)
            ((st.ranges (bucketIdx cfg o)).2))
          (bucketIdx cfg c)
          ((st.ranges (bucketIdx cfg c)).1 + 1)
          ((st.ranges (bucketIdx cfg c)).2)) ≤ sumTotalCount cfg st + 1
    have htcO := tc_mem_le_sum cfg st (bucketIdx cfg o) hoI
    have htcC := tc_mem_le_sum cfg st (bucketIdx cfg c) hcI
    have h1 := sumTotalCount_set cfg st (bucketIdx cfg o) hoI
      (if 0 < (st.ranges (bucketIdx cfg o)).1
       then (st.ranges (bucketIdx cfg o)).1 - 1
       else (st.ranges (bucketIdx cfg o)).1) ((st.ranges (bucketIdx cfg o)).2)
    have h2 := sumTotalCount_set cfg
      (setRangeInfo st (bucketIdx cfg o)
        (if 0 < (st.ranges (bucketIdx cfg o)).1
         then (st.ranges (bucketIdx cfg o)).1 - 1
         else (st.ranges (bucketIdx cfg o)).1)
        ((st.ranges (bucketIdx cfg o)).2))
      (bucketIdx cfg c) hcI
      ((st.ranges (bucketIdx cfg c)).1 + 1) ((st.ranges (bucketIdx cfg c)).2)
    have hread : ((setRangeInfo st (bucketIdx cfg o)
        (if 0 < (st.ranges (bucketIdx cfg o)).1
         then (st.ranges (bucketIdx cfg o)).1 - 1
         else (st.ranges (bucketIdx cfg o)).1)
        ((st.ranges (bucketIdx cfg o)).2)).ranges (bucketIdx cfg c)).1 =
        (st.ranges (bucketIdx cfg c)).1 := by
      rw [setRangeInfo_ranges, if_neg (fun h => hb h.symm)]
    have hpO : packBytes 4
        (if 0 < (st.ranges (bucketIdx cfg o)).1
         then (st.ranges (bucketIdx cfg o)).1 - 1
         else (st.ranges (bucketIdx cfg o)).1) =
        (if 0 < (st.ranges (bucketIdx cfg o)).1
         then (st.ranges (bucketIdx cfg o)).1 - 1
         else (st.ranges (bucketIdx cfg o)).1) := by
      apply packBytes_eq_of_lt
      split <;> omega
    have hpC : packBytes 4 ((st.ranges (bucketIdx cfg c)).1 + 1) =
        (st.ranges (bucketIdx cfg c)).1 + 1 :=
      packBytes_eq_of_lt (by omega)
    rw [hpO] at h1
    rw [hpC, hread] at h2
    have hif : (if 0 < (st.ranges (bucketIdx cfg o)).1
        then (st.ranges (bucketIdx cfg o)).1 - 1
        else (st.ranges (bucketIdx cfg o)).1) ≤
        (st.ranges (bucketIdx cfg o)).1 := by
      split <;> omega
    omega
  · rw [if_neg hb]
    by_cases h0 : (st.ranges (bucketIdx cfg o)).1 = 0
    · rw [if_pos h0]
      show sumTotalCount cfg
          (setRangeInfo st (bucketIdx cfg o) 1
            ((st.ranges (bucketIdx cfg o)).2)) ≤ sumTotalCount cfg st + 1
      have h1 := sumTotalCount_set cfg st (bucketIdx cfg o) hoI 1
        ((st.ranges (bucketIdx cfg o)).2)
      rw [packBytes_eq_of_lt (by norm_num : (1 : Nat) < 256 ^ 4)] at h1
      omega
    · rw [if_neg h0]
      show sumTotalCount cfg st ≤ sumTotalCount cfg st + 1
      omega

theorem runBalanceCalls_sum_le (cfg : PoolCfg)
    (hrc1 : 1 ≤ cfg.rangeCount) (hrc64 : cfg.rangeCount < 2 ^ 64) :
    ∀ (calls : List (Nat × Int × Int)) (st : DistState) (n : Nat),
      sumTotalCount cfg st ≤ n → n + calls.length < 256 ^ 4 →
      sumTotalCount cfg (runBalanceCalls cfg st calls) ≤ n + calls.length := by
  intro calls
  induction calls with
  | nil =>
      intro st n hle _
      show sumTotalCount cfg st ≤ n + 0
      omega
  | cons ev rest ih =>
      intro st n hle hlen
      have hlen' : n + (ev :: rest).length = (n + 1) + rest.length := by
        rw [List.length_cons]
        omega
      rw [hlen']
      show sumTotalCount cfg
        (rest.foldl (applyBalanceCall cfg) (applyBalanceCall cfg st ev)) ≤
          (n + 1) + rest.length
      have hstep := updateAccountBalance_sum_le cfg st ev.1 ev.2.1 ev.2.2
        hrc1 hrc64 (by rw [List.length_cons] at hlen; omega)
      exact ih (applyBalanceCall cfg st ev) (n + 1) (by
        show sumTotalCount cfg (updateAccountBalance cfg st ev.1 ev.2.1 ev.2.2) ≤ n + 1
        omega) (by rw [List.length_cons] at hlen; omega)

/-- Pool of the C5 counterexample and witness: ten ranges of width 100. -/
def c5Cfg : PoolCfg := ⟨10, 100, 1, [], false, fun _ => 0, fun _ => []⟩

/-- C5 counterexample: two distinct fresh accounts (`1` and `2`) each move
from balance 0 to 50 inside bucket 0 — the genesis branch seeds the bucket
only for the first of them, so the totals sum to 1 while 2 distinct
accounts were seeded. -/
theorem c5_counterexample :
    ((([(1, 0, 50), (2, 0, 50)] : List (Nat × Int × Int)).map
        (fun ev => ev.1)).dedup).length = 2 ∧
    sumTotalCount c5Cfg
      (runBalanceCalls c5Cfg zeroDist [(1, 0, 50), (2, 0, 50)]) ≠ 2 := by
  refine ⟨by decide, ?_⟩
  decide

/-- C5 (amended): starting from an all-zero range buffer, each
`updateAccountBalance` call adds at most one to the sum over all ranges of
`totalCount` — the sum is bounded by the number of calls, not equal to the
number of distinct accounts seeded (each count is stored as an unsigned
4-byte field, so no range's count is ever negative).  The bounds keep the
`uint64` range count and the 4-byte counters away from their wrap points. -/
theorem c5_sum_bounded (cfg : PoolCfg) (calls : List (Nat × Int × Int))
    (st0 : DistState)
    (hrc1 : 1 ≤ cfg.rangeCount) (hrc64 : cfg.rangeCount < 2 ^ 64)
    (hz : ∀ i, (st0.ranges i).1 = 0) (hlen : calls.length < 256 ^ 4) :
    sumTotalCount cfg (runBalanceCalls cfg st0 calls) ≤ calls.length := by
  have h0 : sumTotalCount cfg st0 = 0 := by
    unfold sumTotalCount
    apply List.sum_eq_zero
    intro x hx
    rcases List.mem_map.mp hx with ⟨i, -, rfl⟩
    exact hz i
  have := runBalanceCalls_sum_le cfg hrc1 hrc64 calls st0 0 (by omega)
    (by omega)
  omega

theorem c5_sum_bounded_witness :
    1 ≤ c5Cfg.rangeCount ∧ c5Cfg.rangeCount < 2 ^ 64 ∧
    (∀ i, (zeroDist.ranges i).1 = 0) ∧
    sumTotalCount c5Cfg
      (runBalanceCalls c5Cfg zeroDist [(1, 0, 50), (2, 0, 50)]) ≤ 2 :=
  ⟨by decide, by decide, fun i => rfl,
    c5_sum_bounded c5Cfg [(1, 0, 50), (2, 0, 50)] zeroDist (by decide)
      (by decide) (fun i => rfl) (by decide)⟩

/-! ## `FinalizeBlock` (`farm.go`, lines 94-243) -/

/-- Abstract ledger contents: the sequence of state writes applied so far.
`state.Snapshot()` takes a copy and `state.RevertToSnapshot` restores it. -/
abbrev Ledger := List Nat

/-- One log of a receipt, already classified the way the loop at
`farm.go` lines 173-230 classifies it: an ERC-20 `Transfer` on some token,
an `AddressAdded` log of the tree contract, a farm `DistributeRewards`
log, or anything else. -/
inductive FLog where
  | transfer (pool frm dst amount : Nat)
  | addressAdded (parent child : Nat)
  | distribute (pool tok holderReward communityReward : Nat)
  | other

/-- One receipt as `FinalizeBlock` consumes it: the failure status, the
recovered sender (ECRecover may fail), the transaction's `To` address and
value, whether the transaction is an import-relation call, and the logs. -/
structure FReceipt where
  failed : Bool
  sender : Except Unit Nat
  toAddr : Option Nat
  txValue : Nat
  isImport : Bool
  logs : List FLog

/-- The collaborators `FinalizeBlock` drives, abstracted as effect oracles:
reading ones return values (or fail), mutating ones return the ledger
transformation their writes perform (or fail).  `anchor` is
`anchorClient != nil`, `pools` is `farmContract.GetPools()`. -/
structure FEnv where
  anchor : Bool
  pools : List Nat
  rTransferValue : Nat
  codeSize : Nat → Nat
  depthOf : Nat → Except Unit Nat
  makeRelation : Nat → Nat → Except Unit (Ledger → Ledger)
  appendChild : Nat → Nat → Except Unit (Ledger → Ledger)
  balanceOf : Nat → Nat → Except Unit Int
  achievement : Nat → Nat → Int → Except Unit (Ledger → Ledger)
  transferEvent : Nat → Nat → Nat → Nat → Except Unit (Ledger → Ledger)
  rewardShares : Nat → Nat → Nat → Nat → Ledger → Ledger
  storageWrites : Ledger → Ledger

/-- The per-pool loop run after a new tree relation (and for
`AddressAdded` import logs): fetch the child's balance (failure reverts to
the snapshot and aborts) and, when positive, run `updateAchievement` for
the pool (failure reverts to the snapshot and aborts).  The `Except` error
value is the ledger the caller returns with. -/
def relationPools (env : FEnv) (snap : Ledger) (child : Nat) :
    List Nat → Ledger → Except Ledger Ledger
  | [], led => .ok led
  | pool :: rest, led =>
      match env.balanceOf pool child with
      | .error _ => .error snap
      | .ok bal =>
          if 0 < bal then
            match env.achievement pool child bal with
            | .error _ => .error snap
            | .ok w => relationPools env snap child rest (w led)
          else relationPools env snap child rest led

/-- The log loop of `FinalizeBlock` (lines 173-230): pool-token `Transfer`
logs feed `putTransferEventLog` (failure reverts to the snapshot and
aborts), `AddressAdded` logs of import-relation transactions (main net
only) append the child and seed every pool, `DistributeRewards` logs run
`UpdateRewardPerShares` (which cannot fail). -/
def processLogs (env : FEnv) (snap : Ledger) (isImportCall : Bool) :
    List FLog → Ledger → Except Ledger Ledger
  | [], led => .ok led
  | .transfer pool frm dst amount :: rest, led =>
      if pool ∈ env.pools then
        match env.transferEvent pool frm dst amount with
        | .error _ => .error snap
        | .ok w => processLogs env snap isImportCall rest (w led)
      else processLogs env snap isImportCall rest led
  | .addressAdded parent child :: rest, led =>
      if isImportCall = true ∧ env.anchor = false then
        let led1 :=
          match env.appendChild parent child with
          | .error _ => led
          | .ok w => w led
        match relationPools env snap child env.pools led1 with
        | .error e => .error e
        | .ok led2 => processLogs env snap isImportCall rest led2
      else processLogs env snap isImportCall rest led
  | .distribute pool tok hr cr :: rest, led =>
      processLogs env snap isImportCall rest (env.rewardShares pool tok hr cr led)
  | .other :: rest, led => processLogs env snap isImportCall rest led

/-- One receipt of the outer loop (lines 107-231): recover the sender
(failure reverts and aborts); when the transaction has a `To` address,
fetch its tree depth — a failure here returns the error *without*
restoring the snapshot; on main net, a zero-depth child receiving enough
value from a depth-positive non-contract sender gets a new tree relation
(`MakeRelation` / `AppendChild` failures revert and abort, and the child
is seeded into every pool); finally the receipt's logs are processed. -/
def processReceipt (env : FEnv) (snap : Ledger) (r : FReceipt)
    (led : Ledger) : Except Ledger Ledger :=
  match r.sender with
  | .error _ => .error snap
  | .ok parent =>
    match r.toAddr with
    | none => processLogs env snap (!env.anchor && r.isImport) r.logs led
    | some child =>
        match env.depthOf child with
        | .error _ => .error led
        | .ok childDepth =>
            if env.anchor = false ∧ childDepth = 0 ∧
                env.codeSize parent = 0 ∧ env.codeSize child = 0 ∧
                env.rTransferValue ≤ r.txValue then
              match env.depthOf parent with
              | .error _ => .error led
              | .ok parentDepth =>
                  if 0 < parentDepth then
                    match env.makeRelation parent child with
                    | .error _ => .error snap
                    | .ok w =>
                        match env.appendChild parent child with
                        | .error _ => .error snap
                        | .ok w2 =>
                            match relationPools env snap child env.pools
                                (w2 (w led)) with
                            | .error e => .error e
                            | .ok led2 =>
                                processLogs env snap
                                  (!env.anchor && r.isImport) r.logs led2
                  else
                    processLogs env snap (!env.anchor && r.isImport)
                      r.logs led
            else
              processLogs env snap (!env.anchor && r.isImport) r.logs led

/-- The receipt loop: failed receipts are skipped, the rest are processed
in order, an error aborting the loop. -/
def processReceipts (env : FEnv) (snap : Ledger) :
    List FReceipt → Ledger → Except Ledger Ledger
  | [], led => .ok led
  | r :: rest, led =>
      if r.failed = true then processReceipts env snap rest led
      else
        match processReceipt env snap r led with
        | .error e => .error e
        | .ok led1 => processReceipts env snap rest led1

/-- `FinalizeBlock` (`farm.go`, lines 94-243): snapshot the ledger, process
every receipt, and on success flush the buffered pool distributions
(`Storage()`).  The error value of the result is the ledger contents at the
moment of the early return. -/
def finalizeBlock (env : FEnv) (receipts : List FReceipt) (led : Ledger) :
    Except Ledger Ledger :=
  match processReceipts env led receipts led with
  | .error e => .error e
  | .ok led1 => .ok (env.storageWrites led1)

/-- Environment of the C1 bug exhibit: an anchor-mode farm with one pool
token `5`; `DepthOf` fails for address `9` (a failed remote fetch) and a
pool-token transfer writes `42` into the ledger. -/
def c1Env : FEnv :=
  { anchor := true
    pools := [5]
    rTransferValue := 0
    codeSize := fun _ => 0
    depthOf := fun a => if a = 9 then .error () else .ok 0
    makeRelation := fun _ _ => .error ()
    appendChild := fun _ _ => .error ()
    balanceOf := fun _ _ => .ok 0
    achievement := fun _ _ _ => .error ()
    transferEvent := fun _ _ _ _ => .ok (fun led => led ++ [42])
    rewardShares := fun _ _ _ _ led => led
    storageWrites := fun led => led ++ [99] }

/-- First receipt: a successful transaction with no `To` address whose
receipt carries a pool-token `Transfer` log. -/
def c1Receipt1 : FReceipt :=
  ⟨false, .ok 1, none, 0, false, [.transfer 5 1 2 7]⟩

/-- Second receipt: a successful transaction to address `9`, whose
`DepthOf` fetch fails. -/
def c1Receipt2 : FReceipt := ⟨false, .ok 1, some 9, 0, false, []⟩

/-- A receipt whose sender recovery fails, for contrast: that error path
does restore the snapshot. -/
def c1ReceiptBadSender : FReceipt := ⟨false, .error (), none, 0, false, []⟩

/-- C1: `FinalizeBlock` does *not* always roll back to the snapshot on
error.  When a receipt's `DepthOf` fetch fails (`farm.go` lines 123-127 and
131-134), the error is returned without `RevertToSnapshot`, so the ledger
writes of earlier receipts survive: here the first receipt's pool-token
transfer write `42` persists although the call errors, while the same
block with an ECRecover failure instead is rolled back to the empty
snapshot as the claim demands. -/
theorem c1_depthof_error_skips_revert :
    finalizeBlock c1Env [c1Receipt1, c1Receipt2] [] = .error [42] ∧
    ([42] : Ledger) ≠ ([] : Ledger) ∧
    finalizeBlock c1Env [c1Receipt1, c1ReceiptBadSender] [] = .error [] := by
  exact ⟨rfl, by decide, rfl⟩
